import Mathlib

/-!
# simple-file-sync: a verification development

A shallow embedding of the two programs of the repository

* `server/server.go` : the HTTP upload handler `uploadHandler`;
* `client/client.go` : `uploadFile`, the flag check and the initial walk of
  `main`, and the body of the event loop of `main`.

Go strings are lists of characters (`Str`).  The functions of the Go standard
library that the programs call (`strings`, `path/filepath`, `os`, `flag`,
`net/http` form access) and of `fsnotify` are embedded for Unix, element by
element of a slash-separated path.  Sleeping, logging and the scheduling of
goroutines are not represented: every definition is a sequential function of
its inputs and of an explicit file-system state.
-/

set_option autoImplicit false

namespace SimpleFileSync

/-! ## Strings -/

/-- Go `string`, as the list of its characters. -/
abbrev Str := List Char

/-- File contents. -/
abbrev Bytes := List Char

/-- `strings.HasPrefix(s, p)`. -/
def HasPrefix (s p : Str) : Bool := p.isPrefixOf s

/-- `strings.HasSuffix(s, suf)`. -/
def HasSuffix (s suf : Str) : Bool := suf.isSuffixOf s

/-- The separator-delimited elements of a path: `strings.Split(path, "/")`. -/
def splitSep : Str → List Str
  | [] => [[]]
  | c :: cs =>
    if c = '/' then [] :: splitSep cs
    else match splitSep cs with
      | [] => [[c]]
      | s :: ss => (c :: s) :: ss

/-- `strings.Join(elems, "/")`. -/
def joinSep : List Str → Str
  | [] => []
  | [s] => s
  | s :: t :: rest => s ++ '/' :: joinSep (t :: rest)

/-- The path element `.`. -/
def dot : Str := ['.']

/-- The path element `..`. -/
def dotdot : Str := ['.', '.']

/-! ## path/filepath (Unix) -/

/-- `filepath.IsAbs` on Unix: `strings.HasPrefix(path, "/")`. -/
def IsAbs (path : Str) : Bool := HasPrefix path ['/']

/-- One step of the element loop of `filepath.Clean`.  `stack` holds the
elements written so far, last one first.  Empty and `.` elements are dropped;
`..` removes the last real element, is dropped at the root of a rooted path and
is kept at the start of a relative path. -/
def cleanStep (rooted : Bool) (stack : List Str) (seg : Str) : List Str :=
  if seg = [] then stack
  else if seg = dot then stack
  else if seg = dotdot then
    match stack with
    | [] => if rooted then [] else [dotdot]
    | top :: rest => if top = dotdot then dotdot :: top :: rest else rest
  else seg :: stack

/-- The elements of `filepath.Clean(path)`, first one first. -/
def cleanElems (path : Str) : List Str :=
  ((splitSep path).foldl (cleanStep (IsAbs path)) []).reverse

/-- `filepath.Clean(path)`: the shortest path name equivalent to `path` by
purely lexical processing.  The result ends in a slash only if it is the root,
and the empty result is `.`. -/
def Clean (path : Str) : Str :=
  if IsAbs path then '/' :: joinSep (cleanElems path)
  else if cleanElems path = [] then dot
  else joinSep (cleanElems path)

/-- `filepath.Join(a, b)`: the non-empty ones of `a` and `b` joined with a
separator and cleaned; empty when both are empty. -/
def Join (a b : Str) : Str :=
  if a ≠ [] then Clean (a ++ '/' :: b)
  else if b ≠ [] then Clean b
  else []

/-- The part of `path` up to and including its last separator. -/
def dirPart (path : Str) : Str :=
  (path.reverse.dropWhile (fun c => c ≠ '/')).reverse

/-- `filepath.Dir(path)`: all but the last element of `path`, cleaned. -/
def Dir (path : Str) : Str := Clean (dirPart path)

/-- Drop the trailing separators of a path. -/
def stripTrailingSep (path : Str) : Str :=
  (path.reverse.dropWhile (fun c => c = '/')).reverse

/-- The part of `path` after its last separator. -/
def lastElem (path : Str) : Str :=
  (path.reverse.takeWhile (fun c => c ≠ '/')).reverse

/-- `filepath.Base(path)`: the last element of `path`; `.` for the empty path
and `/` for a path of separators only. -/
def Base (path : Str) : Str :=
  if path = [] then dot
  else if lastElem (stripTrailingSep path) = [] then ['/']
  else lastElem (stripTrailingSep path)

/-- The elements that the scanning loop of `filepath.Rel` sees in a cleaned
path: none in the empty path, the single empty element in `/`. -/
def relElems (p : Str) : List Str :=
  if p = [] then [] else if p = ['/'] then [[]] else splitSep p

/-- The loop of `filepath.Rel`: skip the elements that base and target share.
The result is what is left of each, and whether the loop stopped at a pair of
elements that differ. -/
def dropCommon : List Str → List Str → List Str × List Str × Bool
  | b :: bs, t :: ts => if t = b then dropCommon bs ts else (b :: bs, t :: ts, true)
  | bs, ts => (bs, ts, false)

/-- `filepath.Rel(basepath, targpath)`: a relative path that is lexically
equivalent to `targpath` when joined to `basepath`; `none` is the error
"can't make targpath relative to basepath". -/
def Rel (basepath targpath : Str) : Option Str :=
  let base := Clean basepath
  let targ := Clean targpath
  if targ = base then some dot
  else
    let base := if base = dot then [] else base
    if IsAbs base ≠ IsAbs targ then none
    else
      match dropCommon (relElems base) (relElems targ) with
      | (b, t, differ) =>
        if differ ∧ b.head? = some dotdot then none
        else if b ≠ [] then some (joinSep (b.map (fun _ => dotdot) ++ t))
        else some (joinSep t)

/-- `filepath.Abs(path)` in working directory `cwd`. -/
def Abs (cwd path : Str) : Str :=
  if IsAbs path then Clean path else Join cwd path

/-! ## The file system -/

/-- What a location of the file system holds. -/
inductive Node where
  | dir : Node
  | file : Bytes → Node
  deriving DecidableEq, Repr

/-- A file system without links: what is found at each location.  A location
is the list of element names leading to it from the root `[]`. -/
abbrev FS := List Str → Option Node

/-- The errors of the path-based system calls. -/
inductive Errno where
  | ENOENT
  | ENOTDIR
  | EISDIR
  deriving DecidableEq, Repr

/-- `fs` with `n` stored at location `loc`. -/
def FS.set (fs : FS) (loc : List Str) (n : Node) : FS :=
  fun l => if l = loc then some n else fs l

/-- Path resolution from location `cur` along the elements `segs`: every
element is looked up in a location that must be a directory; `..` leads to the
parent, an empty element and `.` stay.  The last element itself need not
exist. -/
def walkPath (fs : FS) : List Str → List Str → Except Errno (List Str)
  | cur, [] => .ok cur
  | cur, s :: rest =>
    match fs cur with
    | some .dir =>
      if s = [] then walkPath fs cur rest
      else if s = dot then walkPath fs cur rest
      else if s = dotdot then walkPath fs cur.dropLast rest
      else walkPath fs (cur ++ [s]) rest
    | some (.file _) => .error .ENOTDIR
    | none => .error .ENOENT

/-- The location that `path` names for a process whose working directory is
the location `cwd`. -/
def namei (fs : FS) (cwd : List Str) (path : Str) : Except Errno (List Str) :=
  if path = [] then .error .ENOENT
  else if IsAbs path then walkPath fs [] (splitSep path)
  else walkPath fs cwd (splitSep path)

/-- The function `basename` of package `os`, which gives the `Name()` of
the `FileInfo` of `os.Stat` and `os.Lstat`: the trailing separators are
removed, all but the first character, and then everything up to the last
separator that stands before the last character. -/
def basename (name : Str) : Str :=
  match name with
  | [] => []
  | c :: cs =>
    let stripped := c :: (cs.reverse.dropWhile (fun x => x = '/')).reverse
    lastElem stripped.dropLast ++ stripped.drop (stripped.length - 1)

/-- The fields of `os.FileInfo` that the programs read. -/
structure FileInfo where
  Name : Str
  IsDir : Bool
  deriving DecidableEq, Repr

/-- `os.Stat(name)`. -/
def Stat (fs : FS) (cwd : List Str) (name : Str) : Except Errno FileInfo :=
  match namei fs cwd name with
  | .error e => .error e
  | .ok loc =>
    match fs loc with
    | none => .error .ENOENT
    | some .dir => .ok { Name := basename name, IsDir := true }
    | some (.file _) => .ok { Name := basename name, IsDir := false }

/-- `os.IsNotExist(err)` for the error of a `Stat` result. -/
def IsNotExist (r : Except Errno FileInfo) : Bool :=
  match r with
  | .error .ENOENT => true
  | _ => false

/-- The loop of `os.MkdirAll` over the elements of a path: a missing
directory is made, an existing one is entered, a file in the way is an
error. -/
def mkdirElems (fs : FS) : List Str → List Str → Except Errno FS
  | _, [] => .ok fs
  | cur, s :: rest =>
    if s = [] then mkdirElems fs cur rest
    else if s = dot then mkdirElems fs cur rest
    else if s = dotdot then mkdirElems fs cur.dropLast rest
    else
      match fs (cur ++ [s]) with
      | some .dir => mkdirElems fs (cur ++ [s]) rest
      | some (.file _) => .error .ENOTDIR
      | none => mkdirElems (fs.set (cur ++ [s]) .dir) (cur ++ [s]) rest

/-- `os.MkdirAll(path, 0755)`: make the directory `path` and every missing
parent. -/
def MkdirAll (fs : FS) (cwd : List Str) (path : Str) : Except Errno FS :=
  if path = [] then .error .ENOENT
  else if IsAbs path then mkdirElems fs [] (splitSep path)
  else mkdirElems fs cwd (splitSep path)

/-- `os.Create(name)`: the file is created or truncated.  The result is the
new state and the location of the open file. -/
def Create (fs : FS) (cwd : List Str) (name : Str) : Except Errno (FS × List Str) :=
  match namei fs cwd name with
  | .error e => .error e
  | .ok loc =>
    match fs loc with
    | some .dir => .error .EISDIR
    | _ => .ok (fs.set loc (.file []), loc)

/-- `io.Copy(out, file)` into the open file at `loc`. -/
def Copy (fs : FS) (loc : List Str) (content : Bytes) : FS :=
  fs.set loc (.file content)

/-- `os.Open(name)` followed by reading the whole file. -/
def Open (fs : FS) (cwd : List Str) (name : Str) : Except Errno Bytes :=
  match namei fs cwd name with
  | .error e => .error e
  | .ok loc =>
    match fs loc with
    | none => .error .ENOENT
    | some .dir => .error .EISDIR
    | some (.file c) => .ok c

/-! ## The server (`server/server.go`) -/

/-- A part of a multipart form: a value field or a file. -/
inductive Part where
  | field : Str → Str → Part
  | file : Str → Str → Bytes → Part
  deriving DecidableEq, Repr

/-- The request as `uploadHandler` reads it: the method, the parameters of
the URL query and the parts of the multipart body. -/
structure Request where
  Method : Str
  query : List (Str × Str)
  parts : List Part
  deriving DecidableEq, Repr

/-- The first value under `key` among the value fields of the parts. -/
def partValue (key : Str) : List Part → Option Str
  | [] => none
  | .field k v :: rest => if k = key then some v else partValue key rest
  | .file _ _ _ :: rest => partValue key rest

/-- The first file under `key` among the parts. -/
def partFile (key : Str) : List Part → Option Bytes
  | [] => none
  | .field _ _ :: rest => partFile key rest
  | .file k _ c :: rest => if k = key then some c else partFile key rest

/-- The first value under `key` among the parameters of the query. -/
def queryValue (key : Str) : List (Str × Str) → Option Str
  | [] => none
  | (k, v) :: rest => if k = key then some v else queryValue key rest

/-- `r.PostFormValue(key)`: the first value under `key` in the body, the
empty string when there is none. -/
def Request.PostFormValue (r : Request) (key : Str) : Str :=
  (partValue key r.parts).getD []

/-- `r.FormValue(key)`: the first value under `key`, the parameters of the
query before the fields of the multipart body; the empty string when there is
none. -/
def Request.FormValue (r : Request) (key : Str) : Str :=
  match queryValue key r.query with
  | some v => v
  | none => (partValue key r.parts).getD []

/-- `r.FormFile(key)`: the first file under `key`; `none` is the error. -/
def Request.FormFile (r : Request) (key : Str) : Option Bytes :=
  partFile key r.parts

/-- The flags `-token` and `-limit-dir` of the server. -/
structure ServerFlags where
  token : Str
  limitDir : Str
  deriving DecidableEq, Repr

/-- The process environment of the server: the result of `os.UserHomeDir()`
(`none` is its error) and the working directory. -/
structure ServerEnv where
  home : Option Str
  cwd : List Str

/-- The status and file-system state at the end of a request. -/
structure Outcome where
  status : Nat
  fs : FS

def StatusOK : Nat := 200
def StatusBadRequest : Nat := 400
def StatusUnauthorized : Nat := 401
def StatusMethodNotAllowed : Nat := 405
def StatusInternalServerError : Nat := 500

/-- The string `"POST"`. -/
def POST : Str := ['P', 'O', 'S', 'T']

/-- The form key `"token"`. -/
def kToken : Str := ['t', 'o', 'k', 'e', 'n']

/-- The form key `"file"`. -/
def kFile : Str := ['f', 'i', 'l', 'e']

/-- The form key `"target"`. -/
def kTarget : Str := ['t', 'a', 'r', 'g', 'e', 't']

/-- Lines 63-90 of `uploadHandler`: make the parent directory when `Stat`
reports it missing, create the file and copy the upload into it. -/
def storeFile (env : ServerEnv) (fs : FS) (fullPath : Str) (file : Bytes) : Outcome :=
  let made : Except Errno FS :=
    if IsNotExist (Stat fs env.cwd (Dir fullPath)) then MkdirAll fs env.cwd (Dir fullPath)
    else .ok fs
  match made with
  | .error _ => { status := StatusInternalServerError, fs := fs }
  | .ok fs1 =>
    match Create fs1 env.cwd fullPath with
    | .error _ => { status := StatusInternalServerError, fs := fs1 }
    | .ok (fs2, out) => { status := StatusOK, fs := Copy fs2 out file }

/-- `uploadHandler(w, r)`: the status written to `w` and the file system
after the request. -/
def uploadHandler (flags : ServerFlags) (env : ServerEnv) (fs : FS) (r : Request) : Outcome :=
  if r.Method ≠ POST then { status := StatusMethodNotAllowed, fs := fs }
  else if flags.token.length ≠ 0 ∧ r.PostFormValue kToken ≠ flags.token then
    { status := StatusUnauthorized, fs := fs }
  else
    match r.FormFile kFile with
    | none => { status := StatusBadRequest, fs := fs }
    | some file =>
      let fullPath := r.FormValue kTarget
      if fullPath = [] then { status := StatusBadRequest, fs := fs }
      else
        match env.home with
        | none => { status := StatusInternalServerError, fs := fs }
        | some home =>
          if !IsAbs fullPath || !HasPrefix fullPath (home ++ flags.limitDir) then
            { status := StatusBadRequest, fs := fs }
          else storeFile env fs fullPath file

/-! ## The client (`client/client.go`): uploads -/

/-- Why `uploadFile` returns an error. -/
inductive UploadError where
  | open : Errno → UploadError
  | rel : UploadError
  | transport : UploadError
  | status : Nat → UploadError
  deriving DecidableEq, Repr

/-- What a call of `uploadFile` does: the multipart body it posts, if it gets
that far, and the error it returns (`none` is `nil`). -/
structure Upload where
  sent : Option (Str × List Part)
  err : Option UploadError
  deriving DecidableEq, Repr

/-- `uploadFile(filename, serverURL, target, baseDir)`.  `post` stands for
`http.Post`: the status of the response, `none` for a transport error. -/
def uploadFile (fs : FS) (cwd : List Str) (post : Str → List Part → Option Nat)
    (filename serverURL target baseDir : Str) : Upload :=
  match Open fs cwd filename with
  | .error e => { sent := none, err := some (.open e) }
  | .ok content =>
    let part := Part.file kFile (Base filename) content
    match Rel baseDir filename with
    | none => { sent := none, err := some .rel }
    | some relativePath =>
      let targetPath := Join target relativePath
      let requestBody := [part, Part.field kTarget targetPath]
      match post serverURL requestBody with
      | none => { sent := some (serverURL, requestBody), err := some .transport }
      | some status =>
        if status ≠ StatusOK then
          { sent := some (serverURL, requestBody), err := some (.status status) }
        else { sent := some (serverURL, requestBody), err := none }

/-- The request that reaches the handler for a body posted by the client to a
URL without query. -/
def postRequest (body : List Part) : Request :=
  { Method := POST, query := [], parts := body }

/-- Where a URL leads: the path and the query parameters with which the
request arrives at the server. -/
structure Route where
  path : Str
  query : List (Str × Str)
  deriving DecidableEq, Repr

/-- The pattern `"/receiver"` of `http.HandleFunc` in `main` of the server. -/
def receiverPath : Str := "/receiver".toList

def StatusNotFound : Nat := 404

/-- The server of `server.go` on one request: `main` registers `uploadHandler`
for the path `/receiver` only (line 106), and the default mux answers every
other path with 404. -/
def serve (flags : ServerFlags) (env : ServerEnv) (fs : FS) (route : Route) (method : Str)
    (body : List Part) : Outcome :=
  if route.path = receiverPath then
    uploadHandler flags env fs { Method := method, query := route.query, parts := body }
  else { status := StatusNotFound, fs := fs }

/-- One upload against a server in state `sfs`.  `net` tells where a URL
leads (`none`: no server is reached, a transport error); `http.Post` sends the
body there with the method POST and is answered by `serve`.  The result is
what the client did and the server state afterwards. -/
def uploadTo (flags : ServerFlags) (env : ServerEnv) (sfs : FS) (net : Str → Option Route)
    (cfs : FS) (cwd : List Str) (filename serverURL target baseDir : Str) : Upload × FS :=
  let up := uploadFile cfs cwd
    (fun url body =>
      match net url with
      | none => none
      | some route => some (serve flags env sfs route POST body).status)
    filename serverURL target baseDir
  match up.sent with
  | none => (up, sfs)
  | some (url, body) =>
    match net url with
    | none => (up, sfs)
    | some route => (up, (serve flags env sfs route POST body).fs)

/-! ## The client: the event loop -/

namespace fsnotify

/-- The bits of `fsnotify.Op`. -/
def Create : Nat := 1
def Write : Nat := 2
def Remove : Nat := 4
def Rename : Nat := 8
def Chmod : Nat := 16

/-- `fsnotify.Event`. -/
structure Event where
  Name : Str
  Op : Nat
  deriving DecidableEq, Repr

/-- `fsnotify.Watcher`: the paths registered so far, in the order of their
registration.  A path is watched when it occurs in the list. -/
structure Watcher where
  watches : List Str
  deriving DecidableEq, Repr

/-- `watcher.Add(name)`: the path is registered when it is `present`, that is
when it names something in the file system; otherwise the call is an error
(`true`) and registers nothing.  No registration is ever removed. -/
def Watcher.Add (w : Watcher) (name : Str) (present : Bool) : Watcher × Bool :=
  if present then ({ watches := w.watches ++ [name] }, false) else (w, true)

end fsnotify

open fsnotify (Event Watcher)

/-- The state that the event loop of `main` changes: the watcher and the
values sent on the channel `jobs`, oldest first. -/
structure Client where
  watcher : Watcher
  jobs : List Str
  deriving DecidableEq, Repr

/-- The string `"~"`. -/
def tilde : Str := ['~']

/-- The test `err == nil && fi.IsDir()` on the result of `os.Stat`. -/
def okDir (st : Except Errno FileInfo) : Bool :=
  match st with
  | .ok fi => fi.IsDir
  | .error _ => false

/-- The test `err == nil && fi.IsDir() && strings.HasPrefix(fi.Name(), ".")`
on the result of `os.Stat`. -/
def okHiddenDir (st : Except Errno FileInfo) : Bool :=
  match st with
  | .ok fi => fi.IsDir && HasPrefix fi.Name dot
  | .error _ => false

/-- Whether `name` names something in the file system. -/
def present (fs : FS) (cwd : List Str) (name : Str) : Bool :=
  match Stat fs cwd name with
  | .ok _ => true
  | .error _ => false

/-- The body of the event loop of `main` for one event read from
`watcher.Events` (lines 136-169), in the file system `fs`. -/
def handleEvent (fs : FS) (cwd : List Str) (c : Client) (event : Event) : Client :=
  if HasSuffix event.Name tilde then c
  else
    let st := Stat fs cwd event.Name
    if okHiddenDir st then c
    else if event.Op &&& fsnotify.Create = fsnotify.Create then
      if okDir st then
        { c with watcher := (c.watcher.Add event.Name (present fs cwd event.Name)).1 }
      else { c with jobs := c.jobs ++ [event.Name] }
    else if event.Op &&& fsnotify.Write = fsnotify.Write then
      { c with jobs := c.jobs ++ [event.Name] }
    else if event.Op &&& fsnotify.Remove = fsnotify.Remove then c
    else if event.Op &&& fsnotify.Rename = fsnotify.Rename then c
    else c

/-- The event loop over a sequence of events, each with the file system at
the time it is handled. -/
def eventLoop (cwd : List Str) (c : Client) (events : List (FS × Event)) : Client :=
  events.foldl (fun c e => handleEvent e.1 cwd c e.2) c

/-! ## The client: the initial walk -/

/-- What `os.Lstat` and `readDirNames` find below a path: a file, a name
whose `Lstat` fails, or a directory with its entries in the order of their
names.  The flag of a directory tells that reading its entries fails. -/
inductive Tree where
  | file : Tree
  | broken : Tree
  | dir : Bool → List (Str × Tree) → Tree
  deriving Repr

/-- The errors passed through `filepath.Walk`. -/
inductive WalkErr where
  | SkipDir
  | io
  deriving DecidableEq, Repr

/-- Whether the tree is a directory. -/
def Tree.IsDir : Tree → Bool
  | .dir _ _ => true
  | _ => false

/-- Whether `Lstat` succeeds on the tree. -/
def Tree.found : Tree → Bool
  | .broken => false
  | _ => true

/-- The `FileInfo` that `Lstat(path)` returns for the tree at `path`. -/
def Tree.info (path : Str) (t : Tree) : FileInfo :=
  { Name := basename path, IsDir := t.IsDir }

mutual
/-- The function `walk` of `path/filepath`: call `fn` for the tree at `path`
and, unless it is a file or `fn` returns an error, descend into it. -/
def walk {σ : Type} (fn : σ → Str → Option FileInfo → Option WalkErr → σ × Option WalkErr)
    (path : Str) : Tree → σ → σ × Option WalkErr
  | .file, s => fn s path (some (Tree.info path .file)) none
  | .broken, s => fn s path none (some .io)
  | .dir readErr children, s =>
    match fn s path (some (Tree.info path (.dir readErr children)))
        (if readErr then some .io else none) with
    | (s1, err1) =>
      if readErr ∨ err1 ≠ none then (s1, err1)
      else walkList fn path children s1
/-- The loop of `walk` over the names of a directory. -/
def walkList {σ : Type} (fn : σ → Str → Option FileInfo → Option WalkErr → σ × Option WalkErr)
    (path : Str) : List (Str × Tree) → σ → σ × Option WalkErr
  | [], s => (s, none)
  | (name, .broken) :: rest, s =>
    match fn s (Join path name) none (some .io) with
    | (s1, err) =>
      if err ≠ none ∧ err ≠ some .SkipDir then (s1, err)
      else walkList fn path rest s1
  | (name, t) :: rest, s =>
    match walk fn (Join path name) t s with
    | (s1, err) =>
      if err ≠ none ∧ (!t.IsDir ∨ err ≠ some .SkipDir) then (s1, err)
      else walkList fn path rest s1
end

/-- `filepath.Walk(root, fn)` where `t` is what `os.Lstat(root)` finds. -/
def Walk {σ : Type} (fn : σ → Str → Option FileInfo → Option WalkErr → σ × Option WalkErr)
    (root : Str) (t : Tree) (s : σ) : σ × Option WalkErr :=
  match t with
  | .broken =>
    match fn s root none (some .io) with
    | (s1, err) => if err = some .SkipDir then (s1, none) else (s1, err)
  | t =>
    match walk fn root t s with
    | (s1, err) => if err = some .SkipDir then (s1, none) else (s1, err)

/-- The variables that the callback of the initial walk changes. -/
structure WalkState where
  filesToUpload : List Str
  watcher : Watcher
  deriving DecidableEq, Repr

/-- The mode `"all"`. -/
def modeAll : Str := ['a', 'l', 'l']

/-- The mode `"git"`. -/
def modeGit : Str := ['g', 'i', 't']

/-- The callback that `main` passes to `filepath.Walk` (lines 189-208).  The
walk passes no `FileInfo` only together with an error. -/
def walkFn (initMode : Str) (s : WalkState) (path : Str) (info : Option FileInfo)
    (err : Option WalkErr) : WalkState × Option WalkErr :=
  match err with
  | some e => (s, some e)
  | none =>
    match info with
    | none => (s, some .io)
    | some info =>
      if !info.IsDir then
        if initMode = modeAll then ({ s with filesToUpload := s.filesToUpload ++ [path] }, none)
        else (s, none)
      else if HasPrefix info.Name dot then (s, some .SkipDir)
      else ({ s with watcher := (s.watcher.Add path true).1 }, none)

/-! ## The client: `main` -/

/-- `strings.Split(s, "\n")`. -/
def splitLines : Str → List Str
  | [] => [[]]
  | c :: cs =>
    if c = '\n' then [] :: splitLines cs
    else match splitLines cs with
      | [] => [[c]]
      | s :: ss => (c :: s) :: ss

/-- `getGitDiffFiles(baseDir)`, where `output` is what the command
`git diff origin --name-only` prints in `baseDir` (`none` when it fails). -/
def getGitDiffFiles (output : Option Str) (baseDir : Str) : Option (List Str) :=
  match output with
  | none => none
  | some out => some (((splitLines out).filter (fun file => file ≠ [])).map (Join baseDir))

namespace flag

/-- `flag.Flag`: a name and the current value. -/
structure Flag where
  Name : Str
  Value : Str
  deriving DecidableEq, Repr

/-- `flag.FlagSet`: the defined flags (`formal`) and the flags that the
command line has set (`actual`), each in the order of the names. -/
structure FlagSet where
  formal : List Flag
  actual : List Flag
  deriving DecidableEq, Repr

/-- Store `value` under `name`, when `name` is there. -/
def assign (name value : Str) : List Flag → List Flag
  | [] => []
  | f :: rest =>
    if f.Name = name then { f with Value := value } :: rest else f :: assign name value rest

/-- `flag.Parse()` on a command line given as its `-name=value` pairs: each
pair sets a defined flag; a name that is not defined is an error (`none`). -/
def Parse : FlagSet → List (Str × Str) → Option FlagSet
  | fset, [] => some fset
  | fset, (name, value) :: rest =>
    if fset.formal.any (fun f => f.Name = name) then
      Parse { formal := assign name value fset.formal,
              actual := if fset.actual.any (fun f => f.Name = name)
                        then assign name value fset.actual
                        else fset.actual ++ [{ Name := name, Value := value }] } rest
    else none

/-- `flag.VisitAll(fn)`: "visits the command-line flags in lexicographical
order, calling fn for each. It visits all flags, even those not set." -/
def FlagSet.VisitAll {σ : Type} (fset : FlagSet) (fn : σ → Flag → σ) (s : σ) : σ :=
  fset.formal.foldl fn s

/-- `flag.Visit(fn)`: "visits the command-line flags in lexicographical
order, calling fn for each. It visits only those flags that have been set." -/
def FlagSet.Visit {σ : Type} (fset : FlagSet) (fn : σ → Flag → σ) (s : σ) : σ :=
  fset.actual.foldl fn s

/-- The value of the flag `name`. -/
def FlagSet.value (fset : FlagSet) (name : Str) : Str :=
  match fset.formal.find? (fun f => f.Name = name) with
  | some f => f.Value
  | none => []

end flag

/-- The names of the flags of the client. -/
def kMode : Str := "mode".toList
def kDir : Str := "dir".toList
def kUrl : Str := "url".toList

/-- The flags that `main` defines, with their default values. -/
def clientFlags : flag.FlagSet :=
  { formal := [ { Name := kDir, Value := "/path/to/your/watched/directory".toList },
                { Name := kMode, Value := modeAll },
                { Name := kTarget, Value := "/path/to/your/destination/directory".toList },
                { Name := kUrl, Value := "http://localhost:8080/receiver".toList } ],
    actual := [] }

/-- The callback that `main` passes to `flag.VisitAll` (lines 97-106), on
the variables `isSetBaseDir`, `isSetServerURL`, `isSetTarget`. -/
def markSet (s : Bool × Bool × Bool) (f : flag.Flag) : Bool × Bool × Bool :=
  if f.Name = kDir then (true, s.2.1, s.2.2)
  else if f.Name = kUrl then (s.1, true, s.2.2)
  else if f.Name = kTarget then (s.1, s.2.1, true)
  else s

/-- What `main` finds outside the process: the working directory, what
`os.Lstat` finds at a path (`Tree.broken` when there is nothing) and what the
git command prints. -/
structure ClientWorld where
  cwd : Str
  lstat : Str → Tree
  gitOutput : Option Str

/-- The steps of `main` that the claims are about, in program order. -/
inductive Action where
  | exitParseError : Action
  | usage : Action
  | newWatcher : Action
  | startWorker : Nat → Action
  | startEventLoop : Action
  | watch : Str → Action
  | enqueue : Str → Action
  | fatal : Action
  | blockForever : Action
  deriving DecidableEq, Repr

def numWorkers : Nat := 30

/-- Lines 116-177 of `main`: the watcher, the workers and the event loop are
started. -/
def startup : List Action :=
  [Action.newWatcher] ++ (List.range numWorkers).map (fun w => Action.startWorker (w + 1))
    ++ [Action.startEventLoop]

/-- Lines 179-229 of `main`: the watch root is registered, the tree is
walked and the selected files are sent on the channel `jobs`. -/
def initialSync (world : ClientWorld) (initMode baseDir : Str) : List Action :=
  match (Watcher.mk []).Add baseDir (world.lstat baseDir).found with
  | (_, true) => [Action.fatal]
  | (watcher, false) =>
    match Walk (walkFn initMode) baseDir (world.lstat baseDir)
        { filesToUpload := [], watcher := watcher } with
    | (s, some _) => s.watcher.watches.map Action.watch ++ [Action.fatal]
    | (s, none) =>
      if initMode = modeAll then
        s.watcher.watches.map Action.watch ++ s.filesToUpload.map Action.enqueue
          ++ [Action.blockForever]
      else if initMode = modeGit then
        match getGitDiffFiles world.gitOutput baseDir with
        | none => s.watcher.watches.map Action.watch ++ [Action.fatal]
        | some files =>
          s.watcher.watches.map Action.watch ++ files.map Action.enqueue
            ++ [Action.blockForever]
      else s.watcher.watches.map Action.watch ++ [Action.fatal]

/-- `main()` of the client on the command line `args`. -/
def main (args : List (Str × Str)) (world : ClientWorld) : List Action :=
  match flag.Parse clientFlags args with
  | none => [Action.exitParseError]
  | some fset =>
    let initMode := fset.value kMode
    let baseDir := fset.value kDir
    let isSet := fset.VisitAll markSet (false, false, false)
    if !isSet.1 || !isSet.2.1 || !isSet.2.2 then [Action.usage]
    else
      let baseDir := Abs world.cwd baseDir
      startup ++ initialSync world initMode baseDir

/-! ## The entries of a tree, for the description of the initial walk -/

/-- What an entry of the walked tree is. -/
inductive Kind where
  | file
  | dir
  | broken
  deriving DecidableEq, Repr

/-- An entry of the walked tree: its path, its kind, whether reading it as a
directory fails, and the paths of the directories of the walked tree that it
is beneath (the root of the walk first, its parent last). -/
structure Entry where
  path : Str
  kind : Kind
  readErr : Bool
  above : List Str
  deriving DecidableEq, Repr

mutual
/-- Every entry of the tree at `path`, parents before their entries; `above`
are the directories above `path`. -/
def entries (path : Str) (above : List Str) : Tree → List Entry
  | .file => [{ path := path, kind := .file, readErr := false, above := above }]
  | .broken => [{ path := path, kind := .broken, readErr := false, above := above }]
  | .dir readErr children =>
    { path := path, kind := .dir, readErr := readErr, above := above }
      :: entriesList path (above ++ [path]) children
/-- Every entry below the directory `path` with the given named trees. -/
def entriesList (path : Str) (above : List Str) : List (Str × Tree) → List Entry
  | [] => []
  | (name, t) :: rest => entries (Join path name) above t ++ entriesList path above rest
end

/-- Whether the base name of `path` begins with `.`. -/
def hiddenName (path : Str) : Bool := HasPrefix (basename path) dot

/-- Whether the entry is beneath a directory whose base name begins with
`.`. -/
def Entry.beneathHidden (e : Entry) : Bool := e.above.any hiddenName

/-- Whether the entry is at or beneath a directory whose base name begins
with `.`. -/
def Entry.underHidden (e : Entry) : Bool :=
  e.beneathHidden || (e.kind = Kind.dir && hiddenName e.path)

/-- The paths of the non-directory entries that are not at or beneath a
hidden directory. -/
def selFiles (es : List Entry) : List Str :=
  (es.filter (fun e => e.kind = Kind.file && !e.underHidden)).map Entry.path

/-- The paths of the directories that are not at or beneath a hidden
directory. -/
def selDirs (es : List Entry) : List Str :=
  (es.filter (fun e => e.kind = Kind.dir && !e.underHidden)).map Entry.path

/-- Whether `Lstat` or reading the directory fails for the entry. -/
def Entry.fails (e : Entry) : Bool := e.kind = Kind.broken || e.readErr

/-- No entry fails, those beneath a hidden directory apart. -/
def readable (es : List Entry) : Bool := es.all (fun e => e.beneathHidden || !e.fails)

/-- The walk state `s` with further files selected and directories
registered. -/
def WalkState.extend (s : WalkState) (files dirs : List Str) : WalkState :=
  { filesToUpload := s.filesToUpload ++ files,
    watcher := { watches := s.watcher.watches ++ dirs } }

/-- The files that the walk in mode `initMode` is to select among the entries
`es`: in mode `all` the files that are not at or beneath a hidden directory,
in every other mode none. -/
def modeFiles (initMode : Str) (es : List Entry) : List Str :=
  if initMode = modeAll then selFiles es else []

/-- What a walk in mode `initMode` that starts in state `s` and is to visit
the entries `es` may return: the state `s` extended by a beginning of the
files to select and of the directories to register of `es`; by all of them
unless the walk returns an I/O error; and no I/O error when `es` is
readable. -/
def Covers (initMode : Str) (s : WalkState) (es : List Entry)
    (r : WalkState × Option WalkErr) : Prop :=
  ∃ F D, r.1 = s.extend F D ∧ F <+: modeFiles initMode es ∧ D <+: selDirs es
    ∧ (r.2 ≠ some .io → F = modeFiles initMode es ∧ D = selDirs es)
    ∧ (readable es = true → r.2 ≠ some .io)

/-! ## Path elements, for the description of `Clean`, `Join` and `Rel` -/

/-- The non-empty elements of a path. -/
def realElems (path : Str) : List Str := (splitSep path).filter (fun s => s ≠ [])

/-- A path element that is a name: not empty, not `.`, not `..`, without a
separator. -/
def plainElem (s : Str) : Prop := s ≠ [] ∧ s ≠ dot ∧ s ≠ dotdot ∧ '/' ∉ s

/-- The shape of the element stack of `Clean` (last element first): names,
below them, for a path that is not rooted, only `..` elements. -/
def canonStack (rooted : Bool) : List Str → Prop
  | [] => True
  | top :: rest =>
    (plainElem top ∧ canonStack rooted rest)
      ∨ (top = dotdot ∧ rooted = false ∧ ∀ s ∈ rest, s = dotdot)

/-! ## Conditions on the server file system -/

/-- Whether a location holds a regular file. -/
def isFile : Option Node → Bool
  | some (.file _) => true
  | _ => false

/-- Whether a location holds a directory. -/
def isDirNode : Option Node → Bool
  | some .dir => true
  | _ => false

/-- No location on the way from `cur` along `segs` holds a regular file; the
location of the last element is not looked at. -/
def noFileOn (fs : FS) : List Str → List Str → Bool
  | _, [] => true
  | cur, s :: rest => !isFile (fs cur) && noFileOn fs (cur ++ [s]) rest

/-- Every location on the way from `cur` along `segs` holds a directory; the
location of the last element is not looked at. -/
def dirsOn (fs : FS) : List Str → List Str → Bool
  | _, [] => true
  | cur, s :: rest => isDirNode (fs cur) && dirsOn fs (cur ++ [s]) rest

/-- A path element that is a name. -/
def nameElem (s : Str) : Prop := s ≠ [] ∧ s ≠ dot ∧ s ≠ dotdot

/-! ## Sample inputs -/

/-- A server started with `-limit-dir /data` and no token. -/
def exFlags : ServerFlags := { token := [], limitDir := "/data".toList }

/-- A server started with `-token s3cret -limit-dir /data`. -/
def exTokenFlags : ServerFlags := { token := "s3cret".toList, limitDir := "/data".toList }

/-- A server process whose home directory is `/home/u`. -/
def exEnv : ServerEnv := { home := some "/home/u".toList, cwd := [] }

/-- A server file system with the directories `/`, `/home`, `/home/u`,
`/home/u/data` and `/etc`. -/
def exFS : FS := fun loc =>
  if loc = [] ∨ loc = ["home".toList] ∨ loc = ["home".toList, "u".toList]
      ∨ loc = ["home".toList, "u".toList, "data".toList] ∨ loc = ["etc".toList]
  then some Node.dir else none

/-- An upload of the content `content` to the target `target`. -/
def exRequest (target content : String) : Request :=
  { Method := POST, query := [],
    parts := [Part.file kFile "x".toList content.toList, Part.field kTarget target.toList] }

/-- The parts of a form without its `token` value fields. -/
def dropToken : List Part → List Part
  | [] => []
  | .field k v :: rest =>
    if k = kToken then dropToken rest else Part.field k v :: dropToken rest
  | .file k n c :: rest => Part.file k n c :: dropToken rest

/-- Whether `root` is `dest` or an ancestor of `dest`, element by element,
after the lexical normalisation of both. -/
def insideRoot (root dest : Str) : Bool :=
  (cleanElems root).isPrefixOf (cleanElems dest)

/-- A client file system with the directories `/`, `/w`, `/w/a`, `/w/.git`
and the files `/w/a/b.txt` and `/w/notes.txt~`, both with the content `hi`. -/
def exClientFS : FS := fun loc =>
  if loc = [] ∨ loc = ["w".toList] ∨ loc = ["w".toList, "a".toList]
      ∨ loc = ["w".toList, ".git".toList]
  then some Node.dir
  else if loc = ["w".toList, "a".toList, "b.txt".toList] ∨ loc = ["w".toList, "notes.txt~".toList]
  then some (Node.file "hi".toList)
  else none

/-- A client that watches `/w` and has sent no job. -/
def exClient : Client := { watcher := { watches := ["/w".toList] }, jobs := [] }

/-- The tree at `/w`: the directories `.git` (with the file `config`) and
`a` (with the file `b.txt`) and the file `notes.txt~`. -/
def exTree : Tree :=
  .dir false [ (".git".toList, .dir false [("config".toList, .file)]),
               ("a".toList, .dir false [("b.txt".toList, .file)]),
               ("notes.txt~".toList, .file) ]

/-- A client machine with `exTree` at `/w` and nothing else. -/
def exWorld : ClientWorld :=
  { cwd := "/".toList, gitOutput := none,
    lstat := fun path => if path = "/w".toList then exTree else Tree.broken }

/-- A network in which `http://h/receiver` leads to the path `/receiver` of
the server, without query, and no other URL leads anywhere. -/
def exNet : Str → Option Route := fun url =>
  if url = "http://h/receiver".toList then some { path := receiverPath, query := [] } else none

/-! ## The server: the sandbox check and the token -/

theorem partValue_dropToken (key : Str) (hkey : key ≠ kToken) (parts : List Part) :
    partValue key (dropToken parts) = partValue key parts := by
  induction parts with
  | nil => rfl
  | cons p rest ih =>
    cases p with
    | field k v =>
      by_cases hk : k = kToken
      · have hne : ¬ kToken = key := fun h => hkey h.symm
        subst hk
        simp only [dropToken, if_true, partValue, if_neg hne]
        exact ih
      · by_cases hkk : k = key
        · simp only [dropToken, if_neg hk, partValue, if_pos hkk]
        · simp only [dropToken, if_neg hk, partValue, if_neg hkk]
          exact ih
    | file k n c =>
      simp only [dropToken, partValue]
      exact ih

theorem partFile_dropToken (key : Str) (parts : List Part) :
    partFile key (dropToken parts) = partFile key parts := by
  induction parts with
  | nil => rfl
  | cons p rest ih =>
    cases p with
    | field k v =>
      by_cases hk : k = kToken
      · simp only [dropToken, if_pos hk, partFile]
        exact ih
      · simp only [dropToken, if_neg hk, partFile]
        exact ih
    | file k n c =>
      by_cases hkk : k = key
      · simp only [dropToken, partFile, if_pos hkk]
      · simp only [dropToken, partFile, if_neg hkk]
        exact ih

/-- C1. A POST request that passes the token check, carries a `file` part and
a non-empty `target` P, with the home directory known: when P is absolute and
starts with home+limitDir the handler goes on to the writing part
(`storeFile`); otherwise the status is 400 and the file system is the one
before the request.  So the file system changes only for a P that is absolute
and starts with home+limitDir. -/
theorem uploadHandler_sandbox_check (flags : ServerFlags) (env : ServerEnv) (fs : FS)
    (r : Request) (file : Bytes) (home : Str)
    (hpost : r.Method = POST)
    (htoken : ¬ (flags.token.length ≠ 0 ∧ r.PostFormValue kToken ≠ flags.token))
    (hfile : r.FormFile kFile = some file)
    (htarget : r.FormValue kTarget ≠ [])
    (hhome : env.home = some home) :
    ((IsAbs (r.FormValue kTarget) = true
        ∧ HasPrefix (r.FormValue kTarget) (home ++ flags.limitDir) = true) →
      uploadHandler flags env fs r = storeFile env fs (r.FormValue kTarget) file)
    ∧ (¬ (IsAbs (r.FormValue kTarget) = true
        ∧ HasPrefix (r.FormValue kTarget) (home ++ flags.limitDir) = true) →
      (uploadHandler flags env fs r).status = 400 ∧ (uploadHandler flags env fs r).fs = fs)
    ∧ ((uploadHandler flags env fs r).fs ≠ fs →
      IsAbs (r.FormValue kTarget) = true
        ∧ HasPrefix (r.FormValue kTarget) (home ++ flags.limitDir) = true) := by
  have hbad : ¬ (IsAbs (r.FormValue kTarget) = true
        ∧ HasPrefix (r.FormValue kTarget) (home ++ flags.limitDir) = true) →
      (uploadHandler flags env fs r).status = 400 ∧ (uploadHandler flags env fs r).fs = fs := by
    intro hno
    have hcond : (!IsAbs (r.FormValue kTarget)
        || !HasPrefix (r.FormValue kTarget) (home ++ flags.limitDir)) = true := by
      cases h1 : IsAbs (r.FormValue kTarget) <;>
        cases h2 : HasPrefix (r.FormValue kTarget) (home ++ flags.limitDir) <;> simp_all
    unfold uploadHandler
    rw [if_neg (by simpa using hpost), if_neg htoken, hfile]
    simp only [if_neg htarget, hhome, hcond, if_true]
    refine ⟨?_, ?_⟩ <;> first | rfl | trivial
  refine ⟨?_, hbad, ?_⟩
  · rintro ⟨h1, h2⟩
    unfold uploadHandler
    rw [if_neg (by simpa using hpost), if_neg htoken, hfile]
    simp [htarget, hhome, h1, h2]
  · intro hne
    by_contra hno
    exact hne (hbad hno).2

/-- C1, at the relative target `../../etc/passwd`: status 400 and nothing
written. -/
theorem uploadHandler_sandbox_check_witness :
    (uploadHandler exFlags exEnv exFS (exRequest "../../etc/passwd" "x")).status = 400
    ∧ (uploadHandler exFlags exEnv exFS (exRequest "../../etc/passwd" "x")).fs = exFS :=
  (uploadHandler_sandbox_check exFlags exEnv exFS (exRequest "../../etc/passwd" "x")
    "x".toList "/home/u".toList (by decide) (by decide) (by decide) (by decide) rfl).2.1
    (by decide)

/-- C3. Token enforcement for POST requests.  (1) With a non-empty configured
token, a request whose `token` field is missing or is not the configured token
gets status 401 and leaves the file system as it was, whatever else it
carries.  (2) With an empty configured token, two requests that differ only in
their `token` fields have the same outcome: the same status and the same file
system afterwards. -/
theorem uploadHandler_token (flags : ServerFlags) (env : ServerEnv) (fs : FS) :
    (∀ r : Request, r.Method = POST → flags.token ≠ [] →
      partValue kToken r.parts ≠ some flags.token →
      (uploadHandler flags env fs r).status = 401 ∧ (uploadHandler flags env fs r).fs = fs)
    ∧ (flags.token = [] → ∀ r1 r2 : Request, r1.Method = POST → r2.Method = POST →
      r1.query = r2.query → dropToken r1.parts = dropToken r2.parts →
      uploadHandler flags env fs r1 = uploadHandler flags env fs r2) := by
  constructor
  · intro r hpost htok hval
    have hlen : flags.token.length ≠ 0 := by
      intro h
      exact htok (List.length_eq_zero.mp h)
    have hne : r.PostFormValue kToken ≠ flags.token := by
      unfold Request.PostFormValue
      cases hv : partValue kToken r.parts with
      | none => simpa using fun h => htok h
      | some v =>
        intro h
        apply hval
        rw [hv]
        simpa using h
    unfold uploadHandler
    rw [if_neg (by simpa using hpost), if_pos ⟨hlen, hne⟩]
    exact ⟨rfl, rfl⟩
  · intro htok r1 r2 h1 h2 hq hp
    have hkey : kTarget ≠ kToken := by decide
    have hfile : r1.FormFile kFile = r2.FormFile kFile := by
      unfold Request.FormFile
      rw [← partFile_dropToken kFile r1.parts, ← partFile_dropToken kFile r2.parts, hp]
    have htarget : r1.FormValue kTarget = r2.FormValue kTarget := by
      unfold Request.FormValue
      rw [← partValue_dropToken kTarget hkey r1.parts,
        ← partValue_dropToken kTarget hkey r2.parts, hp, hq]
    unfold uploadHandler
    simp only [h1, h2, htok, hfile, htarget, List.length_nil, ne_eq, not_true_eq_false,
      false_and, if_false]

/-- C3, at a server with token `s3cret` and a request without a token (401,
nothing written), and at a server without token for the same upload sent with
and without a `token` field. -/
theorem uploadHandler_token_witness :
    ((uploadHandler exTokenFlags exEnv exFS (exRequest "/home/u/data/x" "hi")).status = 401
      ∧ (uploadHandler exTokenFlags exEnv exFS (exRequest "/home/u/data/x" "hi")).fs = exFS)
    ∧ uploadHandler exFlags exEnv exFS (exRequest "/home/u/data/x" "hi")
      = uploadHandler exFlags exEnv exFS
          { exRequest "/home/u/data/x" "hi" with
            parts := Part.field kToken "any".toList :: (exRequest "/home/u/data/x" "hi").parts } :=
  ⟨(uploadHandler_token exTokenFlags exEnv exFS).1 (exRequest "/home/u/data/x" "hi")
      (by decide) (by decide) (by decide),
   (uploadHandler_token exFlags exEnv exFS).2 (by decide) _ _ (by decide) (by decide)
      (by decide) (by decide)⟩

/-! ## The client: the event loop -/

theorem Stat_name (fs : FS) (cwd : List Str) (name : Str) (fi : FileInfo)
    (h : Stat fs cwd name = .ok fi) : fi.Name = basename name := by
  unfold Stat at h
  split at h
  · cases h
  · split at h
    · cases h
    · cases h; rfl
    · cases h; rfl

theorem present_of_okDir (fs : FS) (cwd : List Str) (name : Str)
    (h : okDir (Stat fs cwd name) = true) : present fs cwd name = true := by
  unfold present
  cases hst : Stat fs cwd name with
  | ok fi => rfl
  | error e => rw [hst] at h; cases h

/-- C6. Whatever the operation bits of an event: when its path ends with `~`,
or when the path stats as a directory and its base name begins with `.`, the
handler leaves the client as it was: no job is sent and no directory is
registered. -/
theorem handleEvent_ignored (fs : FS) (cwd : List Str) (c : Client) (event : Event)
    (h : HasSuffix event.Name tilde = true
      ∨ ((∃ fi, Stat fs cwd event.Name = .ok fi ∧ fi.IsDir = true)
          ∧ HasPrefix (basename event.Name) dot = true)) :
    handleEvent fs cwd c event = c
    ∧ (handleEvent fs cwd c event).jobs = c.jobs
    ∧ (handleEvent fs cwd c event).watcher = c.watcher := by
  have key : handleEvent fs cwd c event = c := by
    unfold handleEvent
    rcases h with h | ⟨⟨fi, hst, hdir⟩, hhid⟩
    · rw [if_pos h]
    · have hname := Stat_name fs cwd event.Name fi hst
      have hh : okHiddenDir (Stat fs cwd event.Name) = true := by
        rw [hst]
        simp [okHiddenDir, hdir, hname, hhid]
      by_cases hb : HasSuffix event.Name tilde = true
      · rw [if_pos hb]
      · rw [if_neg hb]
        simp only [hh, if_true]
  rw [key]
  exact ⟨rfl, rfl, rfl⟩

/-- C6, at a Create event for `/w/notes.txt~`. -/
theorem handleEvent_ignored_witness :
    handleEvent exClientFS [] exClient { Name := "/w/notes.txt~".toList, Op := fsnotify.Create }
      = exClient
    ∧ (handleEvent exClientFS [] exClient
        { Name := "/w/notes.txt~".toList, Op := fsnotify.Create }).jobs = exClient.jobs
    ∧ (handleEvent exClientFS [] exClient
        { Name := "/w/notes.txt~".toList, Op := fsnotify.Create }).watcher = exClient.watcher :=
  handleEvent_ignored exClientFS [] exClient
    { Name := "/w/notes.txt~".toList, Op := fsnotify.Create } (Or.inl (by decide))

/-- C7. For an event that the classifier does not ignore (its path does not
end with `~` and is not a directory with a base name in `.`): (1) Create bit
and the path stats as a directory: the path is registered and no job is sent;
(2) Create bit and the path is not a directory or cannot be stat-ed: one job
with the event path is sent, nothing is registered; (3) no Create bit but the
Write bit: one job with the event path is sent; (4) neither bit: nothing
changes.  For every event at all, every watched path stays watched. -/
theorem handleEvent_dispatch (fs : FS) (cwd : List Str) (c : Client) (event : Event) :
    ((HasSuffix event.Name tilde = false ∧ okHiddenDir (Stat fs cwd event.Name) = false) →
      (event.Op &&& fsnotify.Create = fsnotify.Create → okDir (Stat fs cwd event.Name) = true →
        handleEvent fs cwd c event
          = { watcher := { watches := c.watcher.watches ++ [event.Name] }, jobs := c.jobs })
      ∧ (event.Op &&& fsnotify.Create = fsnotify.Create →
        okDir (Stat fs cwd event.Name) = false →
        handleEvent fs cwd c event
          = { watcher := c.watcher, jobs := c.jobs ++ [event.Name] })
      ∧ (event.Op &&& fsnotify.Create ≠ fsnotify.Create →
        event.Op &&& fsnotify.Write = fsnotify.Write →
        handleEvent fs cwd c event
          = { watcher := c.watcher, jobs := c.jobs ++ [event.Name] })
      ∧ (event.Op &&& fsnotify.Create ≠ fsnotify.Create →
        event.Op &&& fsnotify.Write ≠ fsnotify.Write →
        handleEvent fs cwd c event = c))
    ∧ (∀ p ∈ c.watcher.watches, p ∈ (handleEvent fs cwd c event).watcher.watches) := by
  constructor
  · rintro ⟨hbak, hhid⟩
    have hb : ¬ HasSuffix event.Name tilde = true := by simp [hbak]
    have hh : ¬ okHiddenDir (Stat fs cwd event.Name) = true := by simp [hhid]
    refine ⟨?_, ?_, ?_, ?_⟩
    · intro hc hd
      unfold handleEvent
      rw [if_neg hb]
      simp only [if_neg hh, if_pos hc, if_pos hd, present_of_okDir fs cwd event.Name hd,
        Watcher.Add, if_true]
    · intro hc hd
      have hd2 : ¬ okDir (Stat fs cwd event.Name) = true := by simp [hd]
      unfold handleEvent
      rw [if_neg hb]
      simp only [if_neg hh, if_pos hc, if_neg hd2]
    · intro hc hw
      unfold handleEvent
      rw [if_neg hb]
      simp only [if_neg hh, if_neg hc, if_pos hw]
    · intro hc hw
      unfold handleEvent
      rw [if_neg hb]
      simp only [if_neg hh, if_neg hc, if_neg hw, ite_self]
  · intro p hp
    unfold handleEvent
    split_ifs <;> first
      | exact hp
      | (simp only [Watcher.Add]; split_ifs <;> simp [hp])

/-- C7, at a Create event for the new directory `/w/a` (case 1), at a Create
event for the file `/w/a/b.txt` (case 2), at a Write event for it (case 3) and
at a Remove event (case 4). -/
theorem handleEvent_dispatch_witness :
    handleEvent exClientFS [] exClient { Name := "/w/a".toList, Op := fsnotify.Create }
      = { watcher := { watches := ["/w".toList, "/w/a".toList] }, jobs := [] }
    ∧ handleEvent exClientFS [] exClient { Name := "/w/a/b.txt".toList, Op := fsnotify.Create }
      = { watcher := exClient.watcher, jobs := ["/w/a/b.txt".toList] }
    ∧ handleEvent exClientFS [] exClient { Name := "/w/a/b.txt".toList, Op := fsnotify.Write }
      = { watcher := exClient.watcher, jobs := ["/w/a/b.txt".toList] }
    ∧ handleEvent exClientFS [] exClient { Name := "/w/a/b.txt".toList, Op := fsnotify.Remove }
      = exClient :=
  ⟨((handleEvent_dispatch exClientFS [] exClient
      { Name := "/w/a".toList, Op := fsnotify.Create }).1 ⟨by decide, by decide⟩).1
      (by decide) (by decide),
   ((handleEvent_dispatch exClientFS [] exClient
      { Name := "/w/a/b.txt".toList, Op := fsnotify.Create }).1 ⟨by decide, by decide⟩).2.1
      (by decide) (by decide),
   ((handleEvent_dispatch exClientFS [] exClient
      { Name := "/w/a/b.txt".toList, Op := fsnotify.Write }).1 ⟨by decide, by decide⟩).2.2.1
      (by decide) (by decide),
   ((handleEvent_dispatch exClientFS [] exClient
      { Name := "/w/a/b.txt".toList, Op := fsnotify.Remove }).1 ⟨by decide, by decide⟩).2.2.2
      (by decide) (by decide)⟩

/-! ## The client: the initial walk -/

theorem selFiles_append (a b : List Entry) : selFiles (a ++ b) = selFiles a ++ selFiles b := by
  simp [selFiles]

theorem modeFiles_append (m : Str) (a b : List Entry) :
    modeFiles m (a ++ b) = modeFiles m a ++ modeFiles m b := by
  unfold modeFiles
  split
  · exact selFiles_append a b
  · rfl

theorem selDirs_append (a b : List Entry) : selDirs (a ++ b) = selDirs a ++ selDirs b := by
  simp [selDirs]

theorem readable_append (a b : List Entry) :
    readable (a ++ b) = (readable a && readable b) := by
  simp [readable]

mutual
theorem entries_above : ∀ (t : Tree) (path : Str) (above : List Str) (e : Entry),
    e ∈ entries path above t → ∀ d ∈ above, d ∈ e.above
  | .file, path, above, e, he, d, hd => by
    simp only [entries, List.mem_singleton] at he
    subst he
    exact hd
  | .broken, path, above, e, he, d, hd => by
    simp only [entries, List.mem_singleton] at he
    subst he
    exact hd
  | .dir readErr children, path, above, e, he, d, hd => by
    simp only [entries, List.mem_cons] at he
    rcases he with he | he
    · subst he
      exact hd
    · exact entriesList_above children path (above ++ [path]) e he d
        (List.mem_append_left _ hd)
theorem entriesList_above : ∀ (l : List (Str × Tree)) (path : Str) (above : List Str)
    (e : Entry), e ∈ entriesList path above l → ∀ d ∈ above, d ∈ e.above
  | [], path, above, e, he, d, hd => by
    simp [entriesList] at he
  | (name, t) :: rest, path, above, e, he, d, hd => by
    simp only [entriesList, List.mem_append] at he
    rcases he with he | he
    · exact entries_above t (Join path name) above e he d hd
    · exact entriesList_above rest path above e he d hd
end

theorem sel_of_all_hidden (es : List Entry) (h : ∀ e ∈ es, e.beneathHidden = true) :
    selFiles es = [] ∧ selDirs es = [] ∧ readable es = true := by
  refine ⟨?_, ?_, ?_⟩
  · simp only [selFiles, List.map_eq_nil_iff, List.filter_eq_nil_iff]
    intro e he
    simp [Entry.underHidden, h e he]
  · simp only [selDirs, List.map_eq_nil_iff, List.filter_eq_nil_iff]
    intro e he
    simp [Entry.underHidden, h e he]
  · simp only [readable, List.all_eq_true]
    intro e he
    simp [h e he]

theorem extend_nil (s : WalkState) : s.extend [] [] = s := by
  cases s with
  | mk f w => cases w; simp [WalkState.extend]

theorem extend_extend (s : WalkState) (a b c d : List Str) :
    (s.extend a b).extend c d = s.extend (a ++ c) (b ++ d) := by
  simp [WalkState.extend]

theorem walkFn_err (m : Str) (s : WalkState) (path : Str) (info : Option FileInfo)
    (e : WalkErr) : walkFn m s path info (some e) = (s, some e) := rfl

theorem walkFn_file (m : Str) (s : WalkState) (path n : Str) :
    walkFn m s path (some { Name := n, IsDir := false }) none
      = (s.extend (if m = modeAll then [path] else []) [], none) := by
  cases s with
  | mk f w =>
    cases w
    by_cases hm : m = modeAll <;> simp [walkFn, WalkState.extend, hm]

theorem walkFn_hidden (m : Str) (s : WalkState) (path n : Str) (h : HasPrefix n dot = true) :
    walkFn m s path (some { Name := n, IsDir := true }) none = (s, some .SkipDir) := by
  simp [walkFn, h]

theorem walkFn_dir (m : Str) (s : WalkState) (path n : Str) (h : HasPrefix n dot = false) :
    walkFn m s path (some { Name := n, IsDir := true }) none = (s.extend [] [path], none) := by
  cases s with
  | mk f w => cases w; simp [walkFn, h, WalkState.extend, Watcher.Add]

/-- A walk that stops with an I/O error in the first part of the entries. -/
theorem Covers.abort {m : Str} {s : WalkState} {A : List Entry} {r : WalkState × Option WalkErr}
    (B : List Entry) (h : Covers m s A r) (hio : r.2 = some .io) : Covers m s (A ++ B) r := by
  obtain ⟨F, D, h1, h2, h3, h4, h5⟩ := h
  refine ⟨F, D, h1, ?_, ?_, ?_, ?_⟩
  · rw [modeFiles_append]; exact h2.trans (List.prefix_append _ _)
  · rw [selDirs_append]; exact h3.trans (List.prefix_append _ _)
  · intro hne; exact absurd hio hne
  · intro hr
    rw [readable_append, Bool.and_eq_true] at hr
    exact absurd hio (h5 hr.1)

/-- A walk of the first part of the entries that goes on with the rest. -/
theorem Covers.seq {m : Str} {s : WalkState} {A B : List Entry} {r1 r2 : WalkState × Option WalkErr}
    (h : Covers m s A r1) (hgo : r1.2 ≠ some .io) (h2 : Covers m r1.1 B r2) :
    Covers m s (A ++ B) r2 := by
  obtain ⟨F, D, a1, a2, a3, a4, a5⟩ := h
  obtain ⟨F2, D2, b1, b2, b3, b4, b5⟩ := h2
  obtain ⟨hF, hD⟩ := a4 hgo
  refine ⟨F ++ F2, D ++ D2, ?_, ?_, ?_, ?_, ?_⟩
  · rw [b1, a1, extend_extend]
  · rw [modeFiles_append, hF]; exact (List.prefix_append_right_inj _).mpr b2
  · rw [selDirs_append, hD]; exact (List.prefix_append_right_inj _).mpr b3
  · intro hne
    obtain ⟨hF2, hD2⟩ := b4 hne
    rw [modeFiles_append, selDirs_append, hF, hD, hF2, hD2]
    exact ⟨rfl, rfl⟩
  · intro hr
    rw [readable_append, Bool.and_eq_true] at hr
    exact b5 hr.2

/-- The step of the loop of `walk` for a name on which `Lstat` succeeds. -/
theorem walkList_cons {σ : Type}
    (fn : σ → Str → Option FileInfo → Option WalkErr → σ × Option WalkErr)
    (path name : Str) (t : Tree) (rest : List (Str × Tree)) (s : σ) (ht : t.found = true) :
    walkList fn path ((name, t) :: rest) s
      = if (walk fn (Join path name) t s).2 ≠ none
            ∧ (!t.IsDir ∨ (walk fn (Join path name) t s).2 ≠ some .SkipDir)
        then walk fn (Join path name) t s
        else walkList fn path rest (walk fn (Join path name) t s).1 := by
  cases t with
  | broken => cases ht
  | file => simp only [walkList]
  | dir re cs => simp only [walkList]

/-- The step of the induction for a name on which `Lstat` succeeds. -/
theorem walkList_step (m : Str) (name : Str) (t : Tree) (rest : List (Str × Tree)) (path : Str)
    (above : List Str) (s : WalkState) (ht : t.found = true)
    (ih : Covers m s (entries (Join path name) above t)
        (walk (walkFn m) (Join path name) t s)
      ∧ ((walk (walkFn m) (Join path name) t s).2 = some .SkipDir →
          t.IsDir = true ∧ hiddenName (Join path name) = true))
    (ihrest : ∀ s1, Covers m s1 (entriesList path above rest)
        (walkList (walkFn m) path rest s1)
      ∧ (walkList (walkFn m) path rest s1).2 ≠ some .SkipDir) :
    Covers m s (entriesList path above ((name, t) :: rest))
        (walkList (walkFn m) path ((name, t) :: rest) s)
      ∧ (walkList (walkFn m) path ((name, t) :: rest) s).2 ≠ some .SkipDir := by
  rw [walkList_cons _ _ _ _ _ _ ht]
  simp only [entriesList]
  obtain ⟨ihc, ihs⟩ := ih
  cases he : (walk (walkFn m) (Join path name) t s).2 with
  | none =>
    rw [if_neg (by simp)]
    exact ⟨ihc.seq (by simp [he]) (ihrest _).1, (ihrest _).2⟩
  | some e =>
    cases e with
    | io =>
      rw [if_pos (by simp)]
      exact ⟨ihc.abort _ he, by simp [he]⟩
    | SkipDir =>
      have hd := (ihs he).1
      rw [if_neg (by simp [hd])]
      exact ⟨ihc.seq (by simp [he]) (ihrest _).1, (ihrest _).2⟩

mutual
theorem walk_walkFn (m : Str) : ∀ (t : Tree) (path : Str) (above : List Str) (s : WalkState),
    above.any hiddenName = false →
    Covers m s (entries path above t) (walk (walkFn m) path t s)
      ∧ ((walk (walkFn m) path t s).2 = some .SkipDir →
          t.IsDir = true ∧ hiddenName path = true)
  | .file, path, above, s, habove => by
    have hw : walk (walkFn m) path .file s
        = (s.extend (if m = modeAll then [path] else []) [], none) := by
      simp [walk, Tree.info, Tree.IsDir, walkFn_file]
    have hF : modeFiles m (entries path above .file)
        = if m = modeAll then [path] else [] := by
      by_cases hm : m = modeAll <;>
        simp [modeFiles, hm, entries, selFiles, Entry.underHidden, Entry.beneathHidden,
          habove]
    have hD : selDirs (entries path above .file) = [] := by
      simp [entries, selDirs]
    rw [hw]
    refine ⟨⟨_, [], rfl, ?_, ?_, ?_, ?_⟩, ?_⟩
    · rw [hF]
    · rw [hD]
    · intro _; exact ⟨hF.symm, hD.symm⟩
    · intro _; simp
    · simp
  | .broken, path, above, s, habove => by
    refine ⟨⟨[], [], ?_⟩, ?_⟩ <;>
    simp [walk, walkFn_err, extend_nil, entries, readable, Entry.fails,
      Entry.beneathHidden, habove]
  | .dir true children, path, above, s, habove => by
    refine ⟨⟨[], [], ?_⟩, ?_⟩ <;>
    simp [walk, walkFn_err, extend_nil, entries, readable, Entry.fails,
      Entry.beneathHidden, habove]
  | .dir false children, path, above, s, habove => by
    by_cases hh : hiddenName path = true
    · have hall : ∀ e ∈ entriesList path (above ++ [path]) children,
          e.beneathHidden = true := by
        intro e he
        have := entriesList_above children path (above ++ [path]) e he path (by simp)
        simp only [Entry.beneathHidden, List.any_eq_true]
        exact ⟨path, this, hh⟩
      obtain ⟨h1, h2, h3⟩ := sel_of_all_hidden _ hall
      have hfn : walkFn m s path (some (Tree.info path (.dir false children))) none
          = (s, some .SkipDir) := walkFn_hidden _ _ _ _ hh
      have hsF : modeFiles m (entries path above (.dir false children)) = [] := by
        unfold modeFiles
        split
        · rw [← h1]
          simp [entries, selFiles]
        · rfl
      have hsD : selDirs (entries path above (.dir false children)) = [] := by
        rw [← h2]
        simp [entries, selDirs, Entry.underHidden, hh]
      have hw : walk (walkFn m) path (.dir false children) s = (s, some .SkipDir) := by
        simp [walk, hfn]
      rw [hw]
      refine ⟨⟨[], [], ?_⟩, ?_⟩
      · rw [hsF, hsD]
        simp [extend_nil]
      · simp [hh, Tree.IsDir]
    · have hh2 : hiddenName path = false := by simpa using hh
      have hfn : walkFn m s path (some (Tree.info path (.dir false children))) none
          = (s.extend [] [path], none) := walkFn_dir _ _ _ _ hh2
      have habove2 : (above ++ [path]).any hiddenName = false := by
        simp [List.any_append, habove, hh2]
      obtain ⟨⟨F, D, h1, h2, h3, h4, h5⟩, h6⟩ :=
        walkList_walkFn m children path (above ++ [path]) (s.extend [] [path]) habove2
      have hsF : modeFiles m (entries path above (.dir false children))
          = modeFiles m (entriesList path (above ++ [path]) children) := by
        simp [entries, modeFiles, selFiles]
      have hsD : selDirs (entries path above (.dir false children))
          = path :: selDirs (entriesList path (above ++ [path]) children) := by
        simp [entries, selDirs, Entry.underHidden, Entry.beneathHidden, habove, hh2]
      have hr : readable (entries path above (.dir false children)) = true →
          readable (entriesList path (above ++ [path]) children) = true := by
        simp only [entries, readable, List.all_cons, Bool.and_eq_true]
        exact fun h => h.2
      have hw : walk (walkFn m) path (.dir false children) s
          = walkList (walkFn m) path children (s.extend [] [path]) := by
        simp [walk, hfn]
      rw [hw]
      refine ⟨⟨F, path :: D, ?_, ?_, ?_, ?_, ?_⟩, ?_⟩
      · rw [h1, extend_extend]; simp
      · rw [hsF]; exact h2
      · rw [hsD]; exact (List.prefix_cons_inj path).mpr h3
      · intro hne
        obtain ⟨ha, hb⟩ := h4 hne
        rw [hsF, hsD]
        exact ⟨ha, by rw [hb]⟩
      · exact fun h => h5 (hr h)
      · intro hs
        exact absurd hs h6
theorem walkList_walkFn (m : Str) : ∀ (l : List (Str × Tree)) (path : Str) (above : List Str)
    (s : WalkState), above.any hiddenName = false →
    Covers m s (entriesList path above l) (walkList (walkFn m) path l s)
      ∧ (walkList (walkFn m) path l s).2 ≠ some .SkipDir
  | [], path, above, s, habove => by
    refine ⟨⟨[], [], ?_⟩, ?_⟩ <;>
    simp [walkList, extend_nil, entriesList, modeFiles, selFiles, selDirs]
  | (name, .broken) :: rest, path, above, s, habove => by
    have hw : walkList (walkFn m) path ((name, .broken) :: rest) s = (s, some .io) := by
      simp [walkList, walkFn_err]
    rw [hw]
    refine ⟨⟨[], [], ?_⟩, ?_⟩ <;>
    simp [extend_nil, entriesList, entries, readable, Entry.fails, Entry.beneathHidden,
      habove]
  | (name, .file) :: rest, path, above, s, habove =>
    walkList_step m name .file rest path above s rfl
      (walk_walkFn m .file (Join path name) above s habove)
      (fun s1 => walkList_walkFn m rest path above s1 habove)
  | (name, .dir readErr children) :: rest, path, above, s, habove =>
    walkList_step m name (.dir readErr children) rest path above s rfl
      (walk_walkFn m (.dir readErr children) (Join path name) above s habove)
      (fun s1 => walkList_walkFn m rest path above s1 habove)
end

theorem Walk_eq {σ : Type}
    (fn : σ → Str → Option FileInfo → Option WalkErr → σ × Option WalkErr)
    (root : Str) (t : Tree) (s : σ) :
    Walk fn root t s
      = if (walk fn root t s).2 = some .SkipDir then ((walk fn root t s).1, none)
        else walk fn root t s := by
  cases t <;> simp only [Walk, walk]

/-- C10. The initial walk in any mode, from any state, over any tree.  The
walk registers a beginning of the list of the directories of the tree that are
not at or beneath a directory whose base name begins with `.` (the root of the
walk counts as such a directory), and it selects, in mode `all`, a beginning
of the list of the files that are not at or beneath such a directory and, in
every other mode, no file: nothing at or beneath a hidden directory is
selected or registered.  When no entry outside the hidden directories fails
to be read, the walk returns without error and adds exactly these lists: every
other directory is registered and, in mode `all`, every other file is
selected.  When the root is a directory with a base name in `.`, the state
stays as it was. -/
theorem initial_walk_prunes_hidden (initMode root : Str) (t : Tree) (s : WalkState) :
    (∃ F D, F <+: (if initMode = modeAll then selFiles (entries root [] t) else [])
        ∧ D <+: selDirs (entries root [] t)
        ∧ (Walk (walkFn initMode) root t s).1 = s.extend F D)
    ∧ (readable (entries root [] t) = true →
        Walk (walkFn initMode) root t s
          = (s.extend (if initMode = modeAll then selFiles (entries root [] t) else [])
              (selDirs (entries root [] t)), none))
    ∧ (t.IsDir = true → hiddenName root = true →
        (Walk (walkFn initMode) root t s).1 = s) := by
  obtain ⟨⟨F, D, h1, h2, h3, h4, h5⟩, h6⟩ := walk_walkFn initMode t root [] s rfl
  have hmf : modeFiles initMode (entries root [] t)
      = if initMode = modeAll then selFiles (entries root [] t) else [] := rfl
  rw [hmf] at h2 h4
  have hfst : (Walk (walkFn initMode) root t s).1
      = (walk (walkFn initMode) root t s).1 := by
    rw [Walk_eq]; split <;> rfl
  refine ⟨⟨F, D, h2, h3, by rw [hfst, h1]⟩, ?_, ?_⟩
  · intro hr
    have hio := h5 hr
    obtain ⟨hF, hD⟩ := h4 hio
    rw [Walk_eq]
    cases he : (walk (walkFn initMode) root t s).2 with
    | none =>
      rw [if_neg (by simp)]
      rw [← hF, ← hD, ← h1, ← he]
    | some e =>
      cases e with
      | io => exact absurd he hio
      | SkipDir =>
        rw [if_pos rfl, ← hF, ← hD, ← h1]
  · intro hd hh
    cases t with
    | file => cases hd
    | broken => cases hd
    | dir re children =>
      have hall : ∀ e ∈ entriesList root [root] children, e.beneathHidden = true := by
        intro e he
        have := entriesList_above children root [root] e he root (by simp)
        simp only [Entry.beneathHidden, List.any_eq_true]
        exact ⟨root, this, hh⟩
      obtain ⟨a1, a2, _⟩ := sel_of_all_hidden _ hall
      have hsF : selFiles (entries root [] (.dir re children)) = [] := by
        simpa [entries, selFiles] using a1
      have hsD : selDirs (entries root [] (.dir re children)) = [] := by
        simpa [entries, selDirs, Entry.underHidden, hh] using a2
      rw [hsF] at h2
      rw [hsD] at h3
      have hF0 : F = [] := by
        split at h2 <;> exact List.prefix_nil.mp h2
      rw [hfst, h1, hF0, List.prefix_nil.mp h3, extend_nil]

/-- C10, at the tree `exTree`: walked as `/w` in mode `all` and in mode `git`
(the hidden directory `.git` is left out, and in mode `git` no file is
selected), and walked as `/.w` (nothing is selected or registered). -/
theorem initial_walk_prunes_hidden_witness :
    Walk (walkFn modeAll) "/w".toList exTree { filesToUpload := [], watcher := { watches := [] } }
      = ({ filesToUpload := ["/w/a/b.txt".toList, "/w/notes.txt~".toList],
           watcher := { watches := ["/w".toList, "/w/a".toList] } }, none)
    ∧ Walk (walkFn modeGit) "/w".toList exTree
        { filesToUpload := [], watcher := { watches := [] } }
      = ({ filesToUpload := [],
           watcher := { watches := ["/w".toList, "/w/a".toList] } }, none)
    ∧ (Walk (walkFn modeGit) "/.w".toList exTree
        { filesToUpload := [], watcher := { watches := [] } }).1
      = { filesToUpload := [], watcher := { watches := [] } } :=
  ⟨(initial_walk_prunes_hidden modeAll "/w".toList exTree
      { filesToUpload := [], watcher := { watches := [] } }).2.1 (by decide),
   (initial_walk_prunes_hidden modeGit "/w".toList exTree
      { filesToUpload := [], watcher := { watches := [] } }).2.1 (by decide),
   (initial_walk_prunes_hidden modeGit "/.w".toList exTree
      { filesToUpload := [], watcher := { watches := [] } }).2.2 (by decide) (by decide)⟩

/-! ## Lexical path processing -/

theorem splitSep_ne_nil (p : Str) : splitSep p ≠ [] := by
  cases p with
  | nil => simp [splitSep]
  | cons c cs =>
    simp only [splitSep]
    split
    · simp
    · split <;> simp

theorem splitSep_append_sep (a b : Str) :
    splitSep (a ++ '/' :: b) = splitSep a ++ splitSep b := by
  induction a with
  | nil => simp [splitSep]
  | cons c cs ih =>
    by_cases hc : c = '/'
    · simp [splitSep, hc, ih]
    · simp only [List.cons_append, splitSep, if_neg hc]
      have ih2 : splitSep (cs.append ('/' :: b)) = splitSep cs ++ splitSep b := ih
      rw [ih2]
      cases hs : splitSep cs with
      | nil => exact absurd hs (splitSep_ne_nil cs)
      | cons s ss => simp

theorem splitSep_slash_free (p : Str) : ∀ s ∈ splitSep p, '/' ∉ s := by
  induction p with
  | nil => simp [splitSep]
  | cons c cs ih =>
    by_cases hc : c = '/'
    · simp only [splitSep, if_pos hc, List.mem_cons]
      rintro s (hs | hs)
      · simp [hs]
      · exact ih s hs
    · simp only [splitSep, if_neg hc]
      cases hs : splitSep cs with
      | nil => exact absurd hs (splitSep_ne_nil cs)
      | cons s ss =>
        rw [hs] at ih
        simp only [List.mem_cons]
        rintro x (hx | hx)
        · subst hx
          simp only [List.mem_cons, not_or]
          exact ⟨fun h => hc h.symm, ih s (by simp)⟩
        · exact ih x (by simp [hx])

theorem splitSep_of_slash_free (s : Str) (h : '/' ∉ s) : splitSep s = [s] := by
  induction s with
  | nil => rfl
  | cons c cs ih =>
    simp only [List.mem_cons, not_or] at h
    have hc : ¬ c = '/' := fun e => h.1 e.symm
    simp [splitSep, hc, ih h.2]

theorem splitSep_joinSep (E : List Str) (hne : E ≠ []) (h : ∀ s ∈ E, '/' ∉ s) :
    splitSep (joinSep E) = E := by
  induction E with
  | nil => exact absurd rfl hne
  | cons s rest ih =>
    cases rest with
    | nil => simpa [joinSep] using splitSep_of_slash_free s (h s (by simp))
    | cons t rest2 =>
      simp only [joinSep]
      rw [splitSep_append_sep, splitSep_of_slash_free s (h s (by simp)),
        ih (by simp) (fun x hx => h x (by simp [hx]))]
      rfl

theorem foldl_cleanStep_names (rooted : Bool) (segs : List Str)
    (h : ∀ s ∈ segs, s ≠ dot ∧ s ≠ dotdot) (stack : List Str) :
    segs.foldl (cleanStep rooted) stack
      = (segs.filter (fun s => s ≠ [])).reverse ++ stack := by
  induction segs generalizing stack with
  | nil => simp
  | cons s rest ih =>
    have hs := h s (by simp)
    have hrest : ∀ x ∈ rest, x ≠ dot ∧ x ≠ dotdot := fun x hx => h x (by simp [hx])
    by_cases he : s = []
    · simp [List.foldl, cleanStep, he, ih hrest]
    · simp [List.foldl, cleanStep, he, hs.1, hs.2, ih hrest, List.filter]

theorem canonStack_step (rooted : Bool) (stack : List Str) (seg : Str)
    (hst : canonStack rooted stack) (hseg : '/' ∉ seg) :
    canonStack rooted (cleanStep rooted stack seg) := by
  unfold cleanStep
  by_cases h1 : seg = []
  · rw [if_pos h1]; exact hst
  · rw [if_neg h1]
    by_cases h2 : seg = dot
    · rw [if_pos h2]; exact hst
    · rw [if_neg h2]
      by_cases h3 : seg = dotdot
      · rw [if_pos h3]
        cases stack with
        | nil =>
          cases rooted with
          | true => simp [canonStack]
          | false => simp [canonStack]
        | cons top rest =>
          simp only
          by_cases ht : top = dotdot
          · rw [if_pos ht]
            rcases hst with ⟨hp, _⟩ | ⟨_, hr, hall⟩
            · exact absurd ht hp.2.2.1
            · right
              refine ⟨rfl, hr, ?_⟩
              intro x hx
              rcases List.mem_cons.mp hx with hx | hx
              · rw [hx, ht]
              · exact hall x hx
          · rw [if_neg ht]
            rcases hst with ⟨_, hc⟩ | ⟨ht2, _, _⟩
            · exact hc
            · exact absurd ht2 ht
      · rw [if_neg h3]
        left
        exact ⟨⟨h1, h2, h3, hseg⟩, hst⟩

theorem canonStack_foldl (rooted : Bool) (segs : List Str) (stack : List Str)
    (hst : canonStack rooted stack) (hsegs : ∀ s ∈ segs, '/' ∉ s) :
    canonStack rooted (segs.foldl (cleanStep rooted) stack) := by
  induction segs generalizing stack with
  | nil => exact hst
  | cons s rest ih =>
    exact ih _ (canonStack_step rooted stack s hst (hsegs s (by simp)))
      (fun x hx => hsegs x (by simp [hx]))

theorem canonStack_elem (rooted : Bool) (stack : List Str) (hst : canonStack rooted stack) :
    ∀ s ∈ stack, s ≠ [] ∧ s ≠ dot ∧ '/' ∉ s ∧ (rooted = true → s ≠ dotdot) := by
  induction stack with
  | nil => simp
  | cons top rest ih =>
    intro s hs
    rcases hst with ⟨hp, hc⟩ | ⟨ht, hr, hall⟩
    · rcases List.mem_cons.mp hs with hs | hs
      · subst hs
        exact ⟨hp.1, hp.2.1, hp.2.2.2, fun _ => hp.2.2.1⟩
      · exact ih hc s hs
    · have hs2 : s = dotdot := by
        rcases List.mem_cons.mp hs with hs | hs
        · rw [hs, ht]
        · exact hall s hs
      subst hs2
      refine ⟨by decide, by decide, by decide, ?_⟩
      intro h; rw [hr] at h; cases h

theorem foldl_canonStack (rooted : Bool) (stack : List Str) (hst : canonStack rooted stack) :
    stack.reverse.foldl (cleanStep rooted) [] = stack := by
  induction stack with
  | nil => rfl
  | cons top rest ih =>
    have hrest : canonStack rooted rest := by
      rcases hst with ⟨_, hc⟩ | ⟨_, hr, hall⟩
      · exact hc
      · clear ih
        induction rest with
        | nil => trivial
        | cons x xs ihx =>
          right
          exact ⟨hall x (by simp), hr, fun y hy => hall y (by simp [hy])⟩
    rw [List.reverse_cons, List.foldl_append, ih hrest]
    simp only [List.foldl]
    rcases hst with ⟨hp, _⟩ | ⟨ht, hr, hall⟩
    · simp [cleanStep, hp.1, hp.2.1, hp.2.2.1]
    · subst ht
      subst hr
      cases rest with
      | nil => simp [cleanStep, dotdot, dot]
      | cons x xs =>
        have hx : x = dotdot := hall x (by simp)
        subst hx
        simp [cleanStep, dotdot, dot]

theorem IsAbs_cons (c : Char) (cs : Str) : IsAbs (c :: cs) = decide (c = '/') := by
  by_cases h : c = '/'
  · subst h; simp [IsAbs, HasPrefix, List.isPrefixOf]
  · have h2 : ¬ '/' = c := fun e => h e.symm
    simp [IsAbs, HasPrefix, List.isPrefixOf, h, h2]

theorem IsAbs_nil : IsAbs [] = false := rfl

theorem IsAbs_append (a b : Str) (ha : a ≠ []) : IsAbs (a ++ b) = IsAbs a := by
  cases a with
  | nil => exact absurd rfl ha
  | cons c cs => simp [IsAbs_cons]

theorem joinSep_head (E : List Str) (e : Str) (c : Char) (cs : Str) (rest : List Str)
    (hE : E = e :: rest) (he : e = c :: cs) : ∃ tl, joinSep E = c :: tl := by
  subst hE; subst he
  cases rest with
  | nil => exact ⟨cs, rfl⟩
  | cons t r => exact ⟨cs ++ '/' :: joinSep (t :: r), rfl⟩

theorem cleanElems_canon (p : Str) : canonStack (IsAbs p) (cleanElems p).reverse := by
  unfold cleanElems
  rw [List.reverse_reverse]
  exact canonStack_foldl _ _ [] trivial (splitSep_slash_free p)

theorem cleanElems_slash_free (p : Str) : ∀ s ∈ cleanElems p, '/' ∉ s := by
  intro s hs
  exact (canonStack_elem _ _ (cleanElems_canon p) s (by simpa using hs)).2.2.1

theorem foldl_cleanElems (p : Str) :
    (cleanElems p).foldl (cleanStep (IsAbs p)) [] = (cleanElems p).reverse := by
  have h := foldl_canonStack _ _ (cleanElems_canon p)
  rwa [List.reverse_reverse] at h

theorem joinSep_not_abs (E : List Str) (hne : E ≠ [])
    (h : ∀ s ∈ E, s ≠ [] ∧ '/' ∉ s) : IsAbs (joinSep E) = false := by
  cases E with
  | nil => exact absurd rfl hne
  | cons e rest =>
    obtain ⟨h1, h2⟩ := h e (by simp)
    cases e with
    | nil => exact absurd rfl h1
    | cons c cs =>
      obtain ⟨tl, htl⟩ := joinSep_head (( c :: cs) :: rest) (c :: cs) c cs rest rfl rfl
      rw [htl, IsAbs_cons]
      simp only [List.mem_cons, not_or] at h2
      simpa using fun e => h2.1 e.symm

theorem IsAbs_Clean (p : Str) : IsAbs (Clean p) = IsAbs p := by
  unfold Clean
  by_cases ha : IsAbs p = true
  · rw [if_pos ha, ha, IsAbs_cons]; simp
  · rw [if_neg ha]
    have ha2 : IsAbs p = false := by simpa using ha
    rw [ha2]
    by_cases he : cleanElems p = []
    · rw [if_pos he]; rfl
    · rw [if_neg he]
      apply joinSep_not_abs _ he
      intro s hs
      have := canonStack_elem _ _ (cleanElems_canon p) s (by simpa using hs)
      exact ⟨this.1, this.2.2.1⟩

theorem Clean_abs (p : Str) (h : IsAbs p = true) : Clean p = '/' :: joinSep (cleanElems p) := by
  unfold Clean; rw [if_pos h]

theorem Clean_rel_nil (p : Str) (h : IsAbs p = false) (he : cleanElems p = []) :
    Clean p = dot := by
  unfold Clean; rw [if_neg (by simp [h]), if_pos he]

theorem Clean_rel (p : Str) (h : IsAbs p = false) (he : cleanElems p ≠ []) :
    Clean p = joinSep (cleanElems p) := by
  unfold Clean; rw [if_neg (by simp [h]), if_neg he]

theorem cleanElems_Clean (p : Str) : cleanElems (Clean p) = cleanElems p := by
  have hfold := foldl_cleanElems p
  have hsf := cleanElems_slash_free p
  rw [show cleanElems (Clean p)
      = ((splitSep (Clean p)).foldl (cleanStep (IsAbs (Clean p))) []).reverse from rfl,
    IsAbs_Clean]
  suffices h : (splitSep (Clean p)).foldl (cleanStep (IsAbs p)) [] = (cleanElems p).reverse by
    rw [h, List.reverse_reverse]
  cases ha : IsAbs p with
  | true =>
    rw [Clean_abs p ha]
    rw [ha] at hfold
    by_cases he : cleanElems p = []
    · rw [he]
      simp [joinSep, splitSep, cleanStep, List.foldl]
    · have hs : splitSep ('/' :: joinSep (cleanElems p)) = [] :: cleanElems p := by
        simp [splitSep, splitSep_joinSep _ he hsf]
      rw [hs]
      simp only [List.foldl, cleanStep, if_true]
      exact hfold
  | false =>
    rw [ha] at hfold
    by_cases he : cleanElems p = []
    · rw [Clean_rel_nil p ha he, he]
      rfl
    · rw [Clean_rel p ha he, splitSep_joinSep _ he hsf]
      exact hfold

theorem Clean_Clean (p : Str) : Clean (Clean p) = Clean p := by
  have h1 := IsAbs_Clean p
  have h2 := cleanElems_Clean p
  generalize hq : Clean p = q at h1 h2
  unfold Clean
  rw [h1, h2]
  rw [← hq]
  unfold Clean
  rfl

/-- A path whose elements are names or empty. -/
theorem cleanElems_append_names (a r : Str) (ha : a ≠ [])
    (hr : ∀ s ∈ splitSep r, s ≠ dot ∧ s ≠ dotdot) :
    cleanElems (a ++ '/' :: r) = cleanElems a ++ realElems r := by
  unfold cleanElems realElems
  rw [IsAbs_append a _ ha, splitSep_append_sep, List.foldl_append,
    foldl_cleanStep_names _ _ hr]
  simp

theorem cleanElems_names (r : Str) (hr : ∀ s ∈ splitSep r, s ≠ dot ∧ s ≠ dotdot) :
    cleanElems r = realElems r := by
  unfold cleanElems realElems
  rw [foldl_cleanStep_names _ _ hr]
  simp

theorem Clean_congr (p q : Str) (h1 : IsAbs p = IsAbs q) (h2 : cleanElems p = cleanElems q) :
    Clean p = Clean q := by
  unfold Clean
  rw [h1, h2]

theorem realElems_mem (r : Str) (hr : ∀ s ∈ splitSep r, s ≠ dot ∧ s ≠ dotdot) :
    ∀ s ∈ realElems r, s ≠ [] ∧ '/' ∉ s ∧ s ≠ dot ∧ s ≠ dotdot := by
  intro s hs
  simp only [realElems, List.mem_filter, decide_eq_true_eq] at hs
  exact ⟨hs.2, splitSep_slash_free r s hs.1, (hr s hs.1).1, (hr s hs.1).2⟩

theorem realElems_ne_nil (r : Str) (h0 : r ≠ []) (hrel : IsAbs r = false) :
    realElems r ≠ [] := by
  cases r with
  | nil => exact absurd rfl h0
  | cons c cs =>
    rw [IsAbs_cons] at hrel
    have hc : ¬ c = '/' := by simpa using hrel
    simp only [realElems, splitSep, if_neg hc]
    cases hs : splitSep cs with
    | nil => exact absurd hs (splitSep_ne_nil cs)
    | cons x xs => simp [List.filter]

theorem joinSep_ne_nil (E : List Str) (hne : E ≠ []) (h : ∀ s ∈ E, s ≠ []) :
    joinSep E ≠ [] := by
  cases E with
  | nil => exact absurd rfl hne
  | cons e rest =>
    have he := h e (by simp)
    cases e with
    | nil => exact absurd rfl he
    | cons c cs =>
      obtain ⟨tl, htl⟩ := joinSep_head ((c :: cs) :: rest) (c :: cs) c cs rest rfl rfl
      rw [htl]; simp

theorem realElems_joinSep (r : Str) (h0 : r ≠ []) (hrel : IsAbs r = false)
    (hr : ∀ s ∈ splitSep r, s ≠ dot ∧ s ≠ dotdot) :
    splitSep (joinSep (realElems r)) = realElems r
      ∧ realElems (joinSep (realElems r)) = realElems r := by
  have hm := realElems_mem r hr
  have hs := splitSep_joinSep _ (realElems_ne_nil r h0 hrel) (fun s hs => (hm s hs).2.1)
  refine ⟨hs, ?_⟩
  rw [show realElems (joinSep (realElems r))
      = (splitSep (joinSep (realElems r))).filter (fun s => s ≠ []) from rfl, hs]
  rw [List.filter_eq_self]
  intro s hs
  simpa using (hm s hs).1

theorem relElems_abs (E : List Str) (h : ∀ s ∈ E, s ≠ [] ∧ '/' ∉ s) :
    relElems ('/' :: joinSep E) = [] :: E := by
  by_cases he : E = []
  · subst he; rfl
  · have hj := joinSep_ne_nil E he (fun s hs => (h s hs).1)
    unfold relElems
    rw [if_neg (by simp), if_neg (by simpa using hj)]
    simp [splitSep, splitSep_joinSep E he (fun s hs => (h s hs).2)]

theorem dropCommon_append (B R : List Str) : dropCommon B (B ++ R) = ([], R, false) := by
  induction B with
  | nil => cases R <;> rfl
  | cons b rest ih => simp [dropCommon, ih]

theorem Join_abs (W r : Str) (hW : IsAbs W = true)
    (hr : ∀ s ∈ splitSep r, s ≠ dot ∧ s ≠ dotdot) :
    Join W r = '/' :: joinSep (cleanElems W ++ realElems r) := by
  have hne : W ≠ [] := by
    intro h; rw [h] at hW; cases hW
  unfold Join
  rw [if_pos hne, Clean_abs _ (by rw [IsAbs_append W _ hne]; exact hW),
    cleanElems_append_names W r hne hr]

/-- The relative path of `W/r` with respect to `W`. -/
theorem Rel_Join (W r : Str) (hW : IsAbs W = true) (h0 : r ≠ []) (hrel : IsAbs r = false)
    (hr : ∀ s ∈ splitSep r, s ≠ dot ∧ s ≠ dotdot) :
    Rel W (Join W r) = some (joinSep (realElems r)) := by
  have hne : W ≠ [] := by
    intro h; rw [h] at hW; cases hW
  have hR := realElems_ne_nil r h0 hrel
  have hm := realElems_mem r hr
  have hB : ∀ s ∈ cleanElems W, s ≠ [] ∧ '/' ∉ s := by
    intro s hs
    have := canonStack_elem _ _ (cleanElems_canon W) s (by simpa using hs)
    exact ⟨this.1, this.2.2.1⟩
  have hBR : ∀ s ∈ cleanElems W ++ realElems r, s ≠ [] ∧ '/' ∉ s := by
    intro s hs
    rcases List.mem_append.mp hs with hs | hs
    · exact hB s hs
    · exact ⟨(hm s hs).1, (hm s hs).2.1⟩
  have hbase : Clean W = '/' :: joinSep (cleanElems W) := Clean_abs W hW
  have htarg : Clean (Join W r) = '/' :: joinSep (cleanElems W ++ realElems r) := by
    have hj : Join W r = Clean (W ++ '/' :: r) := by
      unfold Join; rw [if_pos hne]
    rw [hj, Clean_Clean, ← hj, Join_abs W r hW hr]
  have hdiff : ¬ ('/' :: joinSep (cleanElems W ++ realElems r)
      = '/' :: joinSep (cleanElems W)) := by
    intro h
    have h1 := relElems_abs _ hBR
    have h2 := relElems_abs _ hB
    rw [h, h2] at h1
    have h3 : cleanElems W = cleanElems W ++ realElems r := by
      simpa using h1
    have h4 := congrArg List.length h3
    simp only [List.length_append] at h4
    have h5 : (realElems r).length = 0 := by omega
    exact hR (List.length_eq_zero.mp h5)
  unfold Rel
  simp only [hbase, htarg]
  rw [if_neg hdiff]
  have hnd : ¬ ('/' :: joinSep (cleanElems W) = dot) := by
    simp [dot]
  simp only [if_neg hnd, IsAbs_cons, decide_True, ne_eq, not_true_eq_false, if_false]
  rw [relElems_abs _ hB, relElems_abs _ hBR]
  simp [dropCommon, dropCommon_append]

/-- Joining the target root with the computed relative path. -/
theorem Join_realElems (T r : Str) (h0 : r ≠ []) (hrel : IsAbs r = false)
    (hr : ∀ s ∈ splitSep r, s ≠ dot ∧ s ≠ dotdot) :
    Join T (joinSep (realElems r)) = Join T r := by
  have hR := realElems_ne_nil r h0 hrel
  have hm := realElems_mem r hr
  obtain ⟨hs1, hs2⟩ := realElems_joinSep r h0 hrel hr
  have hnames : ∀ s ∈ splitSep (joinSep (realElems r)), s ≠ dot ∧ s ≠ dotdot := by
    rw [hs1]
    exact fun s hs => ⟨(hm s hs).2.2.1, (hm s hs).2.2.2⟩
  have hj := joinSep_ne_nil _ hR (fun s hs => (hm s hs).1)
  unfold Join
  by_cases hT : T = []
  · subst hT
    have hnn : ¬ (([] : Str) ≠ []) := by simp
    rw [if_neg hnn, if_pos hj, if_neg hnn, if_pos h0]
    apply Clean_congr
    · rw [hrel]
      exact joinSep_not_abs _ hR (fun s hs => ⟨(hm s hs).1, (hm s hs).2.1⟩)
    · rw [cleanElems_names _ hnames, cleanElems_names _ hr, hs2]
  · rw [if_pos hT, if_pos hT]
    apply Clean_congr
    · rw [IsAbs_append T _ hT, IsAbs_append T _ hT]
    · rw [cleanElems_append_names T _ hT hnames, cleanElems_append_names T _ hT hr, hs2]

theorem insideRoot_Join (T r : Str) (hr : ∀ s ∈ splitSep r, s ≠ dot ∧ s ≠ dotdot) :
    insideRoot T (Join T r) = true := by
  unfold insideRoot
  rw [List.isPrefixOf_iff_prefix]
  by_cases hT : T = []
  · subst hT
    exact List.nil_prefix
  · unfold Join
    rw [if_pos hT, cleanElems_Clean, cleanElems_append_names T r hT hr]
    exact List.prefix_append _ _

/-! ## The client: the target of an upload -/

/-- C4. For an absolute watch root W, any target root T and F = W joined with
a relative path r that is not empty and has no `.` or `..` element: when F can
be opened and holds the bytes c, `uploadFile(F, url, T, W)` posts to `url` the
body with the file part `file` holding c and the field `target` holding T
joined with r, which is what the handler reads as `target` and `file`; and the
target lies under T. -/
theorem uploadFile_target (fs : FS) (cwd : List Str) (post : Str → List Part → Option Nat)
    (W T r url : Str) (c : Bytes)
    (hW : IsAbs W = true) (h0 : r ≠ []) (hrel : IsAbs r = false)
    (hr : ∀ s ∈ splitSep r, s ≠ dot ∧ s ≠ dotdot)
    (hopen : Open fs cwd (Join W r) = .ok c) :
    (uploadFile fs cwd post (Join W r) url T W).sent
        = some (url, [Part.file kFile (Base (Join W r)) c, Part.field kTarget (Join T r)])
    ∧ (postRequest [Part.file kFile (Base (Join W r)) c,
          Part.field kTarget (Join T r)]).FormValue kTarget = Join T r
    ∧ (postRequest [Part.file kFile (Base (Join W r)) c,
          Part.field kTarget (Join T r)]).FormFile kFile = some c
    ∧ insideRoot T (Join T r) = true := by
  refine ⟨?_, ?_, ?_, insideRoot_Join T r hr⟩
  · unfold uploadFile
    rw [hopen]
    simp only [Rel_Join W r hW h0 hrel hr, Join_realElems T r h0 hrel hr]
    cases post url
        [Part.file kFile (Base (Join W r)) c, Part.field kTarget (Join T r)] with
    | none => rfl
    | some status =>
      simp only
      split <;> rfl
  · simp [postRequest, Request.FormValue, queryValue, partValue, kFile, kTarget]
  · simp [postRequest, Request.FormFile, partFile]

/-- C4, at W = `/w`, T = `/t`, r = `a/b.txt`: the target sent is
`/t/a/b.txt`. -/
theorem uploadFile_target_witness :
    (uploadFile exClientFS [] (fun _ _ => some 200) "/w/a/b.txt".toList "http://h/receiver".toList
        "/t".toList "/w".toList).sent
      = some ("http://h/receiver".toList,
          [Part.file kFile "b.txt".toList "hi".toList,
           Part.field kTarget "/t/a/b.txt".toList]) :=
  (uploadFile_target exClientFS [] (fun _ _ => some 200) "/w".toList "/t".toList
    "a/b.txt".toList "http://h/receiver".toList "hi".toList (by decide) (by decide) (by decide)
    (by decide) (by rfl)).1

/-! ## The server: storing the file -/

theorem isDirNode_iff (n : Option Node) : isDirNode n = true ↔ n = some Node.dir := by
  cases n with
  | none => simp [isDirNode]
  | some x => cases x <;> simp [isDirNode]

theorem walkPath_name (fs : FS) (cur : List Str) (s : Str) (rest : List Str)
    (hs : nameElem s) (hd : fs cur = some Node.dir) :
    walkPath fs cur (s :: rest) = walkPath fs (cur ++ [s]) rest := by
  simp [walkPath, hd, hs.1, hs.2.1, hs.2.2]

theorem walkPath_of_dirs (fs : FS) (segs : List Str) (hn : ∀ s ∈ segs, nameElem s)
    (cur : List Str) (h : dirsOn fs cur segs = true) :
    walkPath fs cur segs = .ok (cur ++ segs) := by
  induction segs generalizing cur with
  | nil => simp [walkPath]
  | cons s rest ih =>
    simp only [dirsOn, Bool.and_eq_true, isDirNode_iff] at h
    rw [walkPath_name fs cur s rest (hn s (by simp)) h.1,
      ih (fun x hx => hn x (by simp [hx])) _ h.2]
    simp

theorem walkPath_noFile (fs : FS) (segs : List Str) (hn : ∀ s ∈ segs, nameElem s)
    (cur : List Str) (h : noFileOn fs cur segs = true) :
    (walkPath fs cur segs = .ok (cur ++ segs) ∧ dirsOn fs cur segs = true)
      ∨ walkPath fs cur segs = .error .ENOENT := by
  induction segs generalizing cur with
  | nil => left; simp [walkPath, dirsOn]
  | cons s rest ih =>
    simp only [noFileOn, Bool.and_eq_true, Bool.not_eq_true'] at h
    cases hc : fs cur with
    | none => right; simp [walkPath, hc]
    | some n =>
      cases n with
      | file b => rw [hc] at h; simp [isFile] at h
      | dir =>
        rw [walkPath_name fs cur s rest (hn s (by simp)) hc]
        rcases ih (fun x hx => hn x (by simp [hx])) _ h.2 with ⟨h1, h2⟩ | h1
        · left
          refine ⟨by rw [h1]; simp, ?_⟩
          simp [dirsOn, hc, isDirNode, h2]
        · right; exact h1

theorem dirsOn_concat (fs : FS) (segs : List Str) (x : Str) (cur : List Str) :
    dirsOn fs cur (segs ++ [x]) = (dirsOn fs cur segs && isDirNode (fs (cur ++ segs))) := by
  induction segs generalizing cur with
  | nil => simp [dirsOn]
  | cons s rest ih =>
    have e1 : (s :: rest) ++ [x] = s :: (rest ++ [x]) := rfl
    rw [e1]
    simp only [dirsOn]
    rw [ih]
    simp [Bool.and_assoc]

theorem noFileOn_concat (fs : FS) (segs : List Str) (x : Str) (cur : List Str) :
    noFileOn fs cur (segs ++ [x]) = (noFileOn fs cur segs && !isFile (fs (cur ++ segs))) := by
  induction segs generalizing cur with
  | nil => simp [noFileOn]
  | cons s rest ih =>
    have e1 : (s :: rest) ++ [x] = s :: (rest ++ [x]) := rfl
    rw [e1]
    simp only [noFileOn]
    rw [ih]
    simp [Bool.and_assoc]

theorem dirsOn_congr (fs2 fs1 : FS) (segs : List Str) (cur : List Str)
    (h : ∀ loc : List Str, loc.length < cur.length + segs.length → fs2 loc = fs1 loc) :
    dirsOn fs2 cur segs = dirsOn fs1 cur segs := by
  induction segs generalizing cur with
  | nil => rfl
  | cons s rest ih =>
    simp only [dirsOn]
    rw [h cur (by simp), ih (cur ++ [s]) (fun loc hl => h loc (by
      simp only [List.length_append, List.length_cons, List.length_nil] at hl ⊢; omega))]

theorem noFileOn_set_dir (fs : FS) (loc : List Str) (segs : List Str) (cur : List Str)
    (h : noFileOn fs cur segs = true) : noFileOn (fs.set loc Node.dir) cur segs = true := by
  induction segs generalizing cur with
  | nil => rfl
  | cons s rest ih =>
    simp only [noFileOn, Bool.and_eq_true, Bool.not_eq_true'] at h ⊢
    refine ⟨?_, ih _ h.2⟩
    unfold FS.set
    split
    · rfl
    · exact h.1

/-- The loop of `MkdirAll` over names, none of them in the way as a file. -/
theorem mkdirElems_names (segs : List Str) (hn : ∀ s ∈ segs, nameElem s) (x : Str)
    (fs : FS) (cur : List Str) (hcur : fs cur = some Node.dir)
    (h : noFileOn fs cur (segs ++ [x]) = true) :
    ∃ fs1, mkdirElems fs cur segs = .ok fs1
      ∧ dirsOn fs1 cur (segs ++ [x]) = true
      ∧ (∀ loc, fs loc = some Node.dir → fs1 loc = some Node.dir)
      ∧ (∀ loc, cur.length + segs.length < loc.length → fs1 loc = fs loc) := by
  induction segs generalizing fs cur with
  | nil =>
    refine ⟨fs, rfl, ?_, fun _ h => h, fun _ _ => rfl⟩
    simp [dirsOn, hcur, isDirNode]
  | cons s rest ih =>
    have hs := hn s (by simp)
    have hrest : ∀ y ∈ rest, nameElem y := fun y hy => hn y (by simp [hy])
    simp only [List.cons_append, noFileOn, Bool.and_eq_true, Bool.not_eq_true'] at h
    have hstep : mkdirElems fs cur (s :: rest)
        = match fs (cur ++ [s]) with
          | some .dir => mkdirElems fs (cur ++ [s]) rest
          | some (.file _) => .error .ENOTDIR
          | none => mkdirElems (fs.set (cur ++ [s]) .dir) (cur ++ [s]) rest := by
      simp [mkdirElems, hs.1, hs.2.1, hs.2.2]
    have hnext : isFile (fs (cur ++ [s])) = false := by
      cases rest with
      | nil => simpa [noFileOn] using h.2
      | cons y ys =>
        have h2 := h.2
        simp only [List.cons_append, noFileOn, Bool.and_eq_true, Bool.not_eq_true'] at h2
        exact h2.1
    rw [hstep]
    cases hc : fs (cur ++ [s]) with
    | none =>
      have hset : (fs.set (cur ++ [s]) Node.dir) (cur ++ [s]) = some Node.dir := by
        simp [FS.set]
      obtain ⟨fs1, h1, h2, h3, h4⟩ := ih hrest (fs.set (cur ++ [s]) Node.dir) (cur ++ [s])
        hset (noFileOn_set_dir fs _ _ _ h.2)
      refine ⟨fs1, h1, ?_, ?_, ?_⟩
      · have : fs1 cur = some Node.dir := by
          apply h3
          unfold FS.set
          split
          · rfl
          · exact hcur
        simp [dirsOn, this, isDirNode, h2]
      · intro loc hl
        apply h3
        unfold FS.set
        split
        · rfl
        · exact hl
      · intro loc hl
        rw [h4 loc (by simp only [List.length_append, List.length_cons, List.length_nil] at hl ⊢; omega)]
        unfold FS.set
        rw [if_neg]
        intro he
        rw [he] at hl
        simp only [List.length_append, List.length_cons, List.length_nil] at hl
        omega
    | some n =>
      cases n with
      | file b => rw [hc] at hnext; simp [isFile] at hnext
      | dir =>
        obtain ⟨fs1, h1, h2, h3, h4⟩ := ih hrest fs (cur ++ [s]) hc h.2
        refine ⟨fs1, h1, ?_, h3, ?_⟩
        · simp [dirsOn, h3 cur hcur, isDirNode, h2]
        · intro loc hl
          exact h4 loc (by
            simp only [List.length_append, List.length_cons, List.length_nil] at hl ⊢; omega)

theorem dropWhile_append_all {α : Type} (p : α → Bool) (l1 l2 : List α)
    (h : ∀ x ∈ l1, p x = true) : (l1 ++ l2).dropWhile p = l2.dropWhile p := by
  induction l1 with
  | nil => rfl
  | cons x xs ih =>
    simp only [List.cons_append, List.dropWhile, h x (by simp)]
    exact ih (fun y hy => h y (by simp [hy]))

theorem dirPart_append (a e : Str) (he : '/' ∉ e) : dirPart (a ++ '/' :: e) = a ++ ['/'] := by
  unfold dirPart
  rw [List.reverse_append, List.reverse_cons, List.append_assoc,
    dropWhile_append_all _ _ _ (by
      intro x hx
      have hx2 : x ∈ e := by simpa using hx
      simpa using fun h : x = '/' => he (h ▸ hx2))]
  simp [List.dropWhile]

theorem joinSep_concat (L : List Str) (e : Str) (hL : L ≠ []) :
    joinSep (L ++ [e]) = joinSep L ++ '/' :: e := by
  induction L with
  | nil => exact absurd rfl hL
  | cons s rest ih =>
    cases rest with
    | nil => rfl
    | cons t r =>
      have hih : joinSep (t :: (r ++ [e])) = joinSep (t :: r) ++ '/' :: e := ih (by simp)
      have e1 : joinSep ((s :: t :: r) ++ [e]) = s ++ '/' :: joinSep (t :: (r ++ [e])) := rfl
      have e2 : joinSep (s :: t :: r) = s ++ '/' :: joinSep (t :: r) := rfl
      rw [e1, e2, hih]
      simp

theorem cleanElems_abs_joinSep (L : List Str) (h : ∀ s ∈ L, nameElem s ∧ '/' ∉ s) :
    cleanElems ('/' :: joinSep L) = L := by
  by_cases hL : L = []
  · subst hL; rfl
  · have hs : splitSep ('/' :: joinSep L) = [] :: L := by
      simp [splitSep, splitSep_joinSep L hL (fun s hs => (h s hs).2)]
    unfold cleanElems
    rw [hs, foldl_cleanStep_names]
    · have hf : (([] : Str) :: L).filter (fun s => s ≠ []) = L := by
        simp only [List.filter, ne_eq, not_true_eq_false, decide_False]
        rw [List.filter_eq_self]
        intro s hs
        simpa using (h s hs).1.1
      rw [hf]; simp
    · intro s hs
      rcases List.mem_cons.mp hs with hs | hs
      · subst hs; exact ⟨by decide, by decide⟩
      · exact ⟨(h s hs).1.2.1, (h s hs).1.2.2⟩

/-- The parent directory of a cleaned absolute path. -/
theorem Dir_abs_joinSep (L : List Str) (e : Str) (h : ∀ s ∈ L, nameElem s ∧ '/' ∉ s)
    (he : '/' ∉ e) : Dir ('/' :: joinSep (L ++ [e])) = '/' :: joinSep L := by
  unfold Dir
  by_cases hL : L = []
  · subst hL
    have : '/' :: joinSep ([] ++ [e]) = [] ++ '/' :: e := rfl
    rw [this, dirPart_append [] e he]
    rfl
  · rw [joinSep_concat L e hL]
    have : '/' :: (joinSep L ++ '/' :: e) = ('/' :: joinSep L) ++ '/' :: e := rfl
    rw [this, dirPart_append _ e he]
    have h2 : ('/' :: joinSep L) ++ ['/'] = ('/' :: joinSep L) ++ '/' :: [] := rfl
    rw [h2, Clean_abs _ (by simp [IsAbs_cons]),
      cleanElems_append_names _ [] (by simp) (by
        intro s hs
        simp only [splitSep, List.mem_singleton] at hs
        subst hs
        exact ⟨by decide, by decide⟩),
      cleanElems_abs_joinSep L h]
    simp [realElems, splitSep]

theorem walkPath_root (fs : FS) (L : List Str) (h : ∀ s ∈ L, nameElem s ∧ '/' ∉ s)
    (hroot : fs [] = some Node.dir) :
    walkPath fs [] (splitSep ('/' :: joinSep L)) = walkPath fs [] L := by
  by_cases hL : L = []
  · subst hL
    simp [splitSep, joinSep, walkPath, hroot]
  · have hs : splitSep ('/' :: joinSep L) = [] :: L := by
      simp [splitSep, splitSep_joinSep L hL (fun s hs => (h s hs).2)]
    rw [hs]
    simp [walkPath, hroot]

theorem mkdirElems_root (fs : FS) (L : List Str) (h : ∀ s ∈ L, nameElem s ∧ '/' ∉ s) :
    mkdirElems fs [] (splitSep ('/' :: joinSep L)) = mkdirElems fs [] L := by
  by_cases hL : L = []
  · subst hL
    simp [splitSep, joinSep, mkdirElems]
  · have hs : splitSep ('/' :: joinSep L) = [] :: L := by
      simp [splitSep, splitSep_joinSep L hL (fun s hs => (h s hs).2)]
    rw [hs]
    simp [mkdirElems]

theorem namei_abs (fs : FS) (cwd : List Str) (L : List Str)
    (h : ∀ s ∈ L, nameElem s ∧ '/' ∉ s) (hroot : fs [] = some Node.dir) :
    namei fs cwd ('/' :: joinSep L) = walkPath fs [] L := by
  unfold namei
  rw [if_neg (by simp), if_pos (by simp [IsAbs_cons]), walkPath_root fs L h hroot]

theorem MkdirAll_abs (fs : FS) (cwd : List Str) (L : List Str)
    (h : ∀ s ∈ L, nameElem s ∧ '/' ∉ s) :
    MkdirAll fs cwd ('/' :: joinSep L) = mkdirElems fs [] L := by
  unfold MkdirAll
  rw [if_neg (by simp), if_pos (by simp [IsAbs_cons]), mkdirElems_root fs L h]

/-- The parent directory after lines 65-71 of `uploadHandler`. -/
theorem parent_made (sfs : FS) (cwd : List Str) (L : List Str) (e : Str)
    (hL : ∀ s ∈ L, nameElem s ∧ '/' ∉ s)
    (hroot : sfs [] = some Node.dir)
    (hnf : noFileOn sfs [] (L ++ [e]) = true)
    (hnd : isDirNode (sfs (L ++ [e])) = false) :
    ∃ fs1, (if IsNotExist (Stat sfs cwd ('/' :: joinSep L)) = true
            then MkdirAll sfs cwd ('/' :: joinSep L) else .ok sfs) = .ok fs1
      ∧ fs1 [] = some Node.dir ∧ dirsOn fs1 [] (L ++ [e]) = true
      ∧ isDirNode (fs1 (L ++ [e])) = false := by
  have hnames : ∀ s ∈ L, nameElem s := fun s hs => (hL s hs).1
  by_cases hnot : IsNotExist (Stat sfs cwd ('/' :: joinSep L)) = true
  · rw [if_pos hnot, MkdirAll_abs sfs cwd L hL]
    obtain ⟨fs1, h1, h2, h3, h4⟩ := mkdirElems_names L hnames e sfs [] hroot hnf
    refine ⟨fs1, h1, h3 [] hroot, h2, ?_⟩
    rw [h4 (L ++ [e]) (by simp)]
    exact hnd
  · rw [if_neg hnot]
    refine ⟨sfs, rfl, hroot, ?_, hnd⟩
    rw [noFileOn_concat, Bool.and_eq_true] at hnf
    have hfile : isFile (sfs L) = false := by simpa using hnf.2
    rw [dirsOn_concat, Bool.and_eq_true]
    simp only [List.nil_append]
    unfold Stat at hnot
    rw [namei_abs sfs cwd L hL hroot] at hnot
    rcases walkPath_noFile sfs L hnames [] hnf.1 with ⟨h1, h2⟩ | h1
    · refine ⟨h2, ?_⟩
      rw [h1] at hnot
      simp only [List.nil_append] at hnot
      cases hl : sfs L with
      | none => rw [hl] at hnot; simp [IsNotExist] at hnot
      | some n =>
        cases n with
        | dir => rfl
        | file b => rw [hl] at hfile; simp [isFile] at hfile
    · rw [h1] at hnot
      simp [IsNotExist] at hnot

/-- Lines 63-90 of `uploadHandler` for a cleaned absolute path, given by its
elements, when the root is a directory, no file is in the way and the path is
not a directory: status 200 and the upload is the content of the file. -/
theorem storeFile_elems (env : ServerEnv) (sfs : FS) (L : List Str) (e : Str) (c : Bytes)
    (hL : ∀ s ∈ L, nameElem s ∧ '/' ∉ s) (he : nameElem e ∧ '/' ∉ e)
    (hroot : sfs [] = some Node.dir)
    (hnf : noFileOn sfs [] (L ++ [e]) = true)
    (hnd : isDirNode (sfs (L ++ [e])) = false) :
    (storeFile env sfs ('/' :: joinSep (L ++ [e])) c).status = 200
      ∧ (storeFile env sfs ('/' :: joinSep (L ++ [e])) c).fs (L ++ [e])
          = some (Node.file c)
      ∧ Open (storeFile env sfs ('/' :: joinSep (L ++ [e])) c).fs env.cwd
          ('/' :: joinSep (L ++ [e])) = .ok c := by
  have hall : ∀ s ∈ L ++ [e], nameElem s ∧ '/' ∉ s := by
    intro s hs
    rcases List.mem_append.mp hs with hs | hs
    · exact hL s hs
    · rw [List.mem_singleton.mp hs]; exact he
  obtain ⟨fs1, h1, h2, h3, h4⟩ := parent_made sfs env.cwd L e hL hroot hnf hnd
  have hcreate : Create fs1 env.cwd ('/' :: joinSep (L ++ [e]))
      = .ok (fs1.set (L ++ [e]) (Node.file []), L ++ [e]) := by
    unfold Create
    rw [namei_abs fs1 env.cwd _ hall h2,
      walkPath_of_dirs fs1 _ (fun s hs => (hall s hs).1) [] h3]
    simp only [List.nil_append]
    cases hl : fs1 (L ++ [e]) with
    | none => rfl
    | some n =>
      cases n with
      | dir => rw [hl] at h4; simp [isDirNode] at h4
      | file b => rfl
  have hfs : (storeFile env sfs ('/' :: joinSep (L ++ [e])) c)
      = { status := StatusOK,
          fs := Copy (fs1.set (L ++ [e]) (Node.file [])) (L ++ [e]) c } := by
    unfold storeFile
    rw [Dir_abs_joinSep L e hL he.2]
    simp only [h1, hcreate]
  rw [hfs]
  show StatusOK = 200
    ∧ Copy (fs1.set (L ++ [e]) (Node.file [])) (L ++ [e]) c (L ++ [e]) = some (Node.file c)
    ∧ Open (Copy (fs1.set (L ++ [e]) (Node.file [])) (L ++ [e]) c) env.cwd
        ('/' :: joinSep (L ++ [e])) = .ok c
  have hat : Copy (fs1.set (L ++ [e]) (Node.file [])) (L ++ [e]) c (L ++ [e])
      = some (Node.file c) := by
    simp [Copy, FS.set]
  refine ⟨rfl, hat, ?_⟩
  have hsame : ∀ loc : List Str, loc.length < ([] : List Str).length + (L ++ [e]).length →
      Copy (fs1.set (L ++ [e]) (Node.file [])) (L ++ [e]) c loc = fs1 loc := by
    intro loc hl
    have hne : loc ≠ L ++ [e] := by
      intro h; rw [h] at hl; simp at hl
    simp [Copy, FS.set, hne]
  unfold Open
  rw [namei_abs _ env.cwd _ hall (by rw [hsame [] (by simp)]; exact h2),
    walkPath_of_dirs _ _ (fun s hs => (hall s hs).1) []
      (by rw [dirsOn_congr _ fs1 _ [] hsame]; exact h3)]
  simp only [List.nil_append]
  rw [hat]

/-- Lines 63-90 of `uploadHandler` for a cleaned absolute path P, when the
root is a directory, no file is in the way and P is not a directory. -/
theorem storeFile_ok (env : ServerEnv) (sfs : FS) (P : Str) (c : Bytes)
    (hP : IsAbs P = true) (hclean : Clean P = P)
    (hroot : sfs [] = some Node.dir)
    (hnf : noFileOn sfs [] (cleanElems P) = true)
    (hnd : isDirNode (sfs (cleanElems P)) = false) :
    (storeFile env sfs P c).status = 200
      ∧ (storeFile env sfs P c).fs (cleanElems P) = some (Node.file c)
      ∧ Open (storeFile env sfs P c).fs env.cwd P = .ok c := by
  have hE : ∀ s ∈ cleanElems P, nameElem s ∧ '/' ∉ s := by
    intro s hs
    have := canonStack_elem _ _ (cleanElems_canon P) s (by simpa using hs)
    exact ⟨⟨this.1, this.2.1, this.2.2.2 hP⟩, this.2.2.1⟩
  have hPeq : P = '/' :: joinSep (cleanElems P) := hclean.symm.trans (Clean_abs P hP)
  rcases List.eq_nil_or_concat (cleanElems P) with hnil | ⟨L, e, hLe⟩
  · rw [hnil, hroot] at hnd
    simp [isDirNode] at hnd
  · have hLe2 : cleanElems P = L ++ [e] := by simpa using hLe
    rw [hLe2] at hE hnf hnd hPeq ⊢
    rw [hPeq]
    exact storeFile_elems env sfs L e c (fun s hs => hE s (by simp [hs]))
      (hE e (by simp)) hroot hnf hnd

/-! ## Client and server together -/

/-- The handler of a server without token on the request of a client that
arrives without a `target` parameter in the query. -/
theorem uploadHandler_postRequest (flags : ServerFlags) (env : ServerEnv) (sfs : FS)
    (q : List (Str × Str)) (name : Str) (c : Bytes) (P home : Str)
    (hq : queryValue kTarget q = none)
    (htoken : flags.token = []) (hhome : env.home = some home) :
    uploadHandler flags env sfs
        { Method := POST, query := q,
          parts := [Part.file kFile name c, Part.field kTarget P] }
      = if P = [] then { status := StatusBadRequest, fs := sfs }
        else if (!IsAbs P || !HasPrefix P (home ++ flags.limitDir)) = true then
          { status := StatusBadRequest, fs := sfs }
        else storeFile env sfs P c := by
  have hfile : (Request.mk POST q [Part.file kFile name c, Part.field kTarget P]).FormFile
      kFile = some c := by
    simp [Request.FormFile, partFile]
  have htarget : (Request.mk POST q [Part.file kFile name c, Part.field kTarget P]).FormValue
      kTarget = P := by
    simp [Request.FormValue, hq, partValue]
  unfold uploadHandler
  rw [if_neg (by simp), if_neg (by simp [htoken]), hfile]
  simp only [htarget, hhome]

/-- One upload of the file `W/r` to a URL that leads to the path `/receiver`
of the server. -/
theorem uploadTo_eq (flags : ServerFlags) (env : ServerEnv) (sfs cfs : FS)
    (net : Str → Option Route) (cwd : List Str)
    (W T r url : Str) (c : Bytes) (q : List (Str × Str))
    (hW : IsAbs W = true) (h0 : r ≠ []) (hrel : IsAbs r = false)
    (hr : ∀ s ∈ splitSep r, s ≠ dot ∧ s ≠ dotdot)
    (hopen : Open cfs cwd (Join W r) = .ok c)
    (hnet : net url = some { path := receiverPath, query := q }) :
    (uploadTo flags env sfs net cfs cwd (Join W r) url T W).1.err
        = (if (uploadHandler flags env sfs { Method := POST, query := q, parts :=
              [Part.file kFile (Base (Join W r)) c, Part.field kTarget (Join T r)] }).status
              ≠ StatusOK
           then some (UploadError.status (uploadHandler flags env sfs
              { Method := POST, query := q, parts :=
              [Part.file kFile (Base (Join W r)) c, Part.field kTarget (Join T r)] }).status)
           else none)
    ∧ (uploadTo flags env sfs net cfs cwd (Join W r) url T W).2
        = (uploadHandler flags env sfs { Method := POST, query := q, parts :=
              [Part.file kFile (Base (Join W r)) c, Part.field kTarget (Join T r)] }).fs := by
  unfold uploadTo uploadFile
  rw [hopen]
  simp only [Rel_Join W r hW h0 hrel hr, Join_realElems T r h0 hrel hr, hnet, serve, if_true]
  split_ifs <;> dsimp only <;> simp only [hnet, if_true] <;>
    first
      | exact ⟨rfl, rfl⟩
      | exact ⟨trivial, rfl⟩
      | exact ⟨trivial, trivial⟩

theorem Clean_Join (T r : Str) (h0 : r ≠ []) : Clean (Join T r) = Join T r := by
  unfold Join
  by_cases hT : T = []
  · subst hT
    have hnn : ¬ (([] : Str) ≠ []) := by simp
    rw [if_neg hnn, if_pos h0, Clean_Clean]
  · rw [if_pos hT, Clean_Clean]

/-- C5, as amended.  A client with absolute watch root W and target root T
uploads the file W/r (r relative, not empty, without `.` or `..` element)
with content c to a URL that leads to the path `/receiver` of the server
without a `target` parameter in the query; the server has no token and its
home directory is known.  The server takes the target path P = T joined with
r as it is.  When P is absolute, starts with home+limitDir and lies inside the
sandbox root home+limitDir (the root is P or an ancestor of P, element by
element, after lexical normalisation), and on the server the root is a
directory, no regular file is in the way to P and P is not a directory, the
client gets 200 and afterwards the server-side file with the path P holds c.
When P is not absolute or does not start with home+limitDir, the client gets
400 and the server file system is unchanged. -/
theorem upload_lands_at_target (flags : ServerFlags) (env : ServerEnv) (sfs cfs : FS)
    (net : Str → Option Route) (cwd : List Str) (W T r url : Str) (c : Bytes) (home : Str)
    (q : List (Str × Str))
    (hW : IsAbs W = true) (h0 : r ≠ []) (hrel : IsAbs r = false)
    (hr : ∀ s ∈ splitSep r, s ≠ dot ∧ s ≠ dotdot)
    (hopen : Open cfs cwd (Join W r) = .ok c)
    (hnet : net url = some { path := receiverPath, query := q })
    (hq : queryValue kTarget q = none)
    (htoken : flags.token = []) (hhome : env.home = some home) :
    (IsAbs (Join T r) = true → HasPrefix (Join T r) (home ++ flags.limitDir) = true →
      insideRoot (home ++ flags.limitDir) (Join T r) = true →
      sfs [] = some Node.dir → noFileOn sfs [] (cleanElems (Join T r)) = true →
      isDirNode (sfs (cleanElems (Join T r))) = false →
      (uploadTo flags env sfs net cfs cwd (Join W r) url T W).1.err = none
        ∧ (uploadTo flags env sfs net cfs cwd (Join W r) url T W).2 (cleanElems (Join T r))
            = some (Node.file c)
        ∧ Open (uploadTo flags env sfs net cfs cwd (Join W r) url T W).2 env.cwd (Join T r)
            = .ok c)
    ∧ (¬ (IsAbs (Join T r) = true ∧ HasPrefix (Join T r) (home ++ flags.limitDir) = true) →
      (uploadTo flags env sfs net cfs cwd (Join W r) url T W).1.err
          = some (UploadError.status 400)
        ∧ (uploadTo flags env sfs net cfs cwd (Join W r) url T W).2 = sfs) := by
  obtain ⟨herr, hfs⟩ :=
    uploadTo_eq flags env sfs cfs net cwd W T r url c q hW h0 hrel hr hopen hnet
  have hh := uploadHandler_postRequest flags env sfs q (Base (Join W r)) c (Join T r) home
    hq htoken hhome
  constructor
  · intro hP hpre _ hroot hnf hnd
    have hne : Join T r ≠ [] := by
      intro h; rw [h] at hP; cases hP
    obtain ⟨h1, h2, h3⟩ := storeFile_ok env sfs (Join T r) c hP (Clean_Join T r h0) hroot hnf hnd
    have hcond : ¬ ((!IsAbs (Join T r) || !HasPrefix (Join T r) (home ++ flags.limitDir))
        = true) := by
      simp [hP, hpre]
    rw [if_neg hne, if_neg hcond] at hh
    rw [herr, hfs, hh]
    refine ⟨?_, h2, h3⟩
    rw [if_neg (by rw [h1]; decide)]
  · intro hno
    have hH : uploadHandler flags env sfs { Method := POST, query := q, parts :=
        [Part.file kFile (Base (Join W r)) c, Part.field kTarget (Join T r)] }
        = { status := StatusBadRequest, fs := sfs } := by
      rw [hh]
      by_cases hne : Join T r = []
      · rw [if_pos hne]
      · rw [if_neg hne, if_pos]
        cases h1 : IsAbs (Join T r) <;>
          cases h2 : HasPrefix (Join T r) (home ++ flags.limitDir) <;> simp_all
    rw [herr, hfs, hH]
    exact ⟨rfl, rfl⟩

/-- C5 as amended, at W = `/w`, T = `/home/u/data/t`, r = `a/b.txt` on a
server with home `/home/u` and `-limit-dir /data`: the target lies inside
`/home/u/data`, the client gets 200 and the file `/home/u/data/t/a/b.txt`
holds `hi`. -/
theorem upload_lands_at_target_witness :
    (uploadTo exFlags exEnv exFS exNet exClientFS [] "/w/a/b.txt".toList
        "http://h/receiver".toList "/home/u/data/t".toList "/w".toList).1.err = none
    ∧ (uploadTo exFlags exEnv exFS exNet exClientFS [] "/w/a/b.txt".toList
        "http://h/receiver".toList "/home/u/data/t".toList "/w".toList).2
        ["home".toList, "u".toList, "data".toList, "t".toList, "a".toList, "b.txt".toList]
        = some (Node.file "hi".toList)
    ∧ Open (uploadTo exFlags exEnv exFS exNet exClientFS [] "/w/a/b.txt".toList
        "http://h/receiver".toList "/home/u/data/t".toList "/w".toList).2 []
        "/home/u/data/t/a/b.txt".toList = .ok "hi".toList :=
  (upload_lands_at_target exFlags exEnv exFS exClientFS exNet [] "/w".toList
    "/home/u/data/t".toList "a/b.txt".toList "http://h/receiver".toList "hi".toList
    "/home/u".toList []
    (by decide) (by decide) (by decide) (by decide) (by rfl) (by decide) (by decide)
    (by decide) (by rfl)).1
    (by decide) (by decide) (by decide) (by decide) (by decide) (by decide)

/-- C5 fails as stated.  With watch root `/w`, target root `/t` and the file
`/w/a/b.txt` holding `hi`, a server with home `/home/u` and `-limit-dir /data`
answers 400 and has no file `/home/u/data/t/a/b.txt`.  With the target root
`/home/u/data/t` it answers 200 and the content is in `/home/u/data/t/a/b.txt`,
the target path itself, and not in home+limitDir followed by the target path.
With a token configured the server answers 401, since the client sends no
token. -/
theorem upload_not_under_prepended_root :
    ((uploadTo exFlags exEnv exFS exNet exClientFS [] "/w/a/b.txt".toList
        "http://h/receiver".toList "/t".toList "/w".toList).1.err
        = some (UploadError.status 400)
      ∧ (uploadTo exFlags exEnv exFS exNet exClientFS [] "/w/a/b.txt".toList
          "http://h/receiver".toList "/t".toList "/w".toList).2
          ["home".toList, "u".toList, "data".toList, "t".toList, "a".toList, "b.txt".toList]
          = none)
    ∧ ((uploadTo exFlags exEnv exFS exNet exClientFS [] "/w/a/b.txt".toList
          "http://h/receiver".toList "/home/u/data/t".toList "/w".toList).1.err = none
      ∧ (uploadTo exFlags exEnv exFS exNet exClientFS [] "/w/a/b.txt".toList
          "http://h/receiver".toList "/home/u/data/t".toList "/w".toList).2
          ["home".toList, "u".toList, "data".toList, "t".toList, "a".toList, "b.txt".toList]
          = some (Node.file "hi".toList)
      ∧ (uploadTo exFlags exEnv exFS exNet exClientFS [] "/w/a/b.txt".toList
          "http://h/receiver".toList "/home/u/data/t".toList "/w".toList).2
          ["home".toList, "u".toList, "data".toList, "home".toList, "u".toList,
           "data".toList, "t".toList, "a".toList, "b.txt".toList] = none)
    ∧ (uploadTo exTokenFlags exEnv exFS exNet exClientFS [] "/w/a/b.txt".toList
          "http://h/receiver".toList "/home/u/data/t".toList "/w".toList).1.err
        = some (UploadError.status 401) := by
  decide

/-! ## The client: the flag check -/

theorem assign_names (name value : Str) (l : List flag.Flag) :
    (flag.assign name value l).map flag.Flag.Name = l.map flag.Flag.Name := by
  induction l with
  | nil => rfl
  | cons f rest ih =>
    unfold flag.assign
    split
    · rfl
    · simp [ih]

theorem Parse_names (args : List (Str × Str)) (fset fset2 : flag.FlagSet)
    (h : flag.Parse fset args = some fset2) :
    fset2.formal.map flag.Flag.Name = fset.formal.map flag.Flag.Name := by
  induction args generalizing fset with
  | nil =>
    simp only [flag.Parse, Option.some.injEq] at h
    rw [h]
  | cons a rest ih =>
    obtain ⟨name, value⟩ := a
    unfold flag.Parse at h
    split at h
    · rw [ih _ h]
      exact assign_names name value fset.formal
    · cases h

/-- The three variables of lines 96-106 of `main` are set after every
command line that `flag.Parse` accepts. -/
theorem markSet_all (args : List (Str × Str)) (fset : flag.FlagSet)
    (h : flag.Parse clientFlags args = some fset) :
    fset.VisitAll markSet (false, false, false) = (true, true, true) := by
  have hn := Parse_names args clientFlags fset h
  unfold flag.FlagSet.VisitAll
  generalize fset.formal = l at hn
  match l, hn with
  | [a, b, c, d], hn =>
    simp only [clientFlags, List.map, List.cons.injEq, and_true] at hn
    obtain ⟨ha, hb, hc, hd⟩ := hn
    simp only [List.foldl, markSet, ha, hb, hc, hd]
    decide
  | [], hn => simp [clientFlags] at hn
  | [_], hn => simp [clientFlags] at hn
  | [_, _], hn => simp [clientFlags] at hn
  | [_, _, _], hn => simp [clientFlags] at hn
  | _ :: _ :: _ :: _ :: _ :: _, hn => simp [clientFlags] at hn

/-- The usage branch of `main` is never taken. -/
theorem main_never_usage (args : List (Str × Str)) (world : ClientWorld) :
    main args world ≠ [Action.usage] := by
  unfold main
  cases h : flag.Parse clientFlags args with
  | none => simp
  | some fset =>
    simp only [markSet_all args fset h]
    simp [startup]

/-! ## Inputs on which the programs leave their description -/

/-- C2. With home `/home/u` and `-limit-dir /data`, the handler answers 200
and writes for the target `/home/u/data2/x` (a sibling of the sandbox root,
which it creates) and for the target `/home/u/data/../../../etc/cron.d/x`
(which is `/etc/cron.d/x`): both pass the string-prefix check and neither lies
inside `/home/u/data`. -/
theorem uploadHandler_writes_outside_root :
    ((uploadHandler exFlags exEnv exFS (exRequest "/home/u/data2/x" "evil")).status = 200
      ∧ exFS ["home".toList, "u".toList, "data2".toList] = none
      ∧ (uploadHandler exFlags exEnv exFS (exRequest "/home/u/data2/x" "evil")).fs
          ["home".toList, "u".toList, "data2".toList] = some Node.dir
      ∧ (uploadHandler exFlags exEnv exFS (exRequest "/home/u/data2/x" "evil")).fs
          ["home".toList, "u".toList, "data2".toList, "x".toList]
          = some (Node.file "evil".toList)
      ∧ insideRoot "/home/u/data".toList "/home/u/data2/x".toList = false)
    ∧ ((uploadHandler exFlags exEnv exFS
          (exRequest "/home/u/data/../../../etc/cron.d/x" "evil")).status = 200
      ∧ exFS ["etc".toList, "cron.d".toList, "x".toList] = none
      ∧ (uploadHandler exFlags exEnv exFS
          (exRequest "/home/u/data/../../../etc/cron.d/x" "evil")).fs
          ["etc".toList, "cron.d".toList, "x".toList] = some (Node.file "evil".toList)
      ∧ insideRoot "/home/u/data".toList "/home/u/data/../../../etc/cron.d/x".toList
          = false) := by
  decide

/-- C8. In mode `all` the walk of `/w` selects `/w/notes.txt~`, whose name
ends with `~`, and `main` sends it on `jobs`; the event loop ignores an event
for the same path. -/
theorem initial_walk_selects_backup_file :
    (Walk (walkFn modeAll) "/w".toList exTree
        { filesToUpload := [], watcher := { watches := [] } }).1.filesToUpload
      = ["/w/a/b.txt".toList, "/w/notes.txt~".toList]
    ∧ HasSuffix "/w/notes.txt~".toList tilde = true
    ∧ Action.enqueue "/w/notes.txt~".toList
        ∈ main [(kDir, "/w".toList), (kUrl, "http://h/receiver".toList),
                (kTarget, "/t".toList)] exWorld
    ∧ handleEvent exClientFS [] exClient
        { Name := "/w/notes.txt~".toList, Op := fsnotify.Create } = exClient := by
  decide

/-- C9. `main` without any flag, and `main` with `-dir` only: no usage
message; the watcher is created and the workers are started, and with
`-dir /w` the tree is walked and jobs are sent.  The three variables are set
for every command line, since `flag.VisitAll` visits the defined flags;
`flag.Visit` on the same command line leaves them unset. -/
theorem main_runs_without_mandatory_flags :
    (flag.Parse clientFlags [] = some clientFlags
      ∧ clientFlags.VisitAll markSet (false, false, false) = (true, true, true)
      ∧ clientFlags.Visit markSet (false, false, false) = (false, false, false))
    ∧ (Action.usage ∉ main [] exWorld
      ∧ Action.newWatcher ∈ main [] exWorld
      ∧ Action.startWorker 30 ∈ main [] exWorld)
    ∧ (Action.usage ∉ main [(kDir, "/w".toList)] exWorld
      ∧ Action.newWatcher ∈ main [(kDir, "/w".toList)] exWorld
      ∧ Action.watch "/w/a".toList ∈ main [(kDir, "/w".toList)] exWorld
      ∧ Action.enqueue "/w/a/b.txt".toList ∈ main [(kDir, "/w".toList)] exWorld) := by
  decide

end SimpleFileSync
